import Mathlib

/-!
Field-level model codec of `vowpalwabbit/model_utils.h`.

A shallow embedding of the overloads of `read_model_field` and
`write_model_field` (POD values, `std::vector`, `std::set`, `std::pair`,
`std::priority_queue`, `std::map`) and of the helpers in `details`.

Conventions of the embedding.

* A C++ `char` of the stream is a `Byte` (a natural number); a `std::string` is a
  `String`, one `Char` for each C++ `char`.
* A function that may throw returns an `Outcome`: the `Except` value tells whether
  it returned or threw, and the `io_buf` next to it is the state of the buffer at
  that moment (bytes written before a throw stay written).
* An in/out reference parameter (`T& var`) is passed in and handed back with the
  result.
* `size_t` and `uint64_t` are 64 bits wide: sums of byte counts are taken modulo
  `2 ^ 64`, and a container size is reduced modulo `2 ^ 64` by the cast.
-/

namespace VW
namespace model_utils

/-- One `char` of a binary stream. -/
abbrev Byte := Nat

/-- The exceptions the codec can raise: `THROW(msg)` raises `vw_exception msg`,
and `fmt::format` raises `format_error` on a template it cannot apply. -/
inductive Error where
  | vw_exception (msg : String)
  | format_error
deriving DecidableEq, Repr

deriving instance DecidableEq for Except

/-- Number of values of `size_t` and of `uint64_t`. -/
abbrev WORD : Nat := 2 ^ 64

/-- The type `uint64_t`. -/
abbrev uint64_t := Fin WORD

/-- The conversion `static_cast<uint64_t>(n)` of a container size. -/
def to_uint64 (n : Nat) : uint64_t := ⟨n % WORD, Nat.mod_lt _ (by decide)⟩

/-- The statement `bytes += k` on a `size_t` accumulator. -/
def add_bytes (bytes k : Nat) : Nat := (bytes + k) % WORD

/-- Modelled from the spec: the byte sink/source `io_buf` (`io_buf.h` is not among
the sources). `written` holds the bytes the sink has accepted, `room` the number of
bytes it can still accept (`none`: no limit), `unread` the bytes of the source that
have not been consumed. A transfer moves the requested bytes, or fewer when the
capacity or the stream is exhausted, and reports how many it moved. -/
structure io_buf where
  written : List Byte
  room : Option Nat
  unread : List Byte
deriving DecidableEq, Repr

/-- A buffer that may throw: the result or the exception, and the buffer state. -/
abbrev Outcome (α : Type) := Except Error α × io_buf

/-- Modelled from the spec: `io_buf::bin_write_fixed(data, len)`, which appends the
first `len` bytes of `data` to the sink, as far as the capacity allows, and returns
the number of bytes appended. -/
def io_buf.bin_write_fixed (io : io_buf) (data : List Byte) (len : Nat) : Nat × io_buf :=
  let k := match io.room with
    | none => len
    | some r => min len r
  (k, { written := io.written ++ data.take k, room := io.room.map (fun r => r - k),
        unread := io.unread })

/-- Modelled from the spec: `io_buf::bin_read_fixed(data, len)`, which takes up to
`len` bytes off the source and returns them with their number. -/
def io_buf.bin_read_fixed (io : io_buf) (len : Nat) : (List Byte × Nat) × io_buf :=
  let got := io.unread.take len
  ((got, got.length), { io with unread := io.unread.drop len })

/-- An empty sink without a capacity limit. -/
def io_buf.sink : io_buf := { written := [], room := none, unread := [] }

/-- A source holding the bytes `bs`. -/
def io_buf.source (bs : List Byte) : io_buf := { written := [], room := none, unread := bs }

/-- A POD type `T`: its `sizeof`, the bytes of a value as seen through
`reinterpret_cast<char*>`, the value a sequence of bytes stands for, its rendering
by `fmt::format("{}", v)`, and the (indeterminate) value of an uninitialised
variable. Copying the bytes of a trivially copyable value out and back gives the
value again. -/
structure Pod (T : Type) where
  size : Nat
  toBytes : T → List Byte
  ofBytes : List Byte → T
  fmt : T → String
  uninit : T
  size_pos : 0 < size
  size_lt : size < WORD
  toBytes_length : ∀ v, (toBytes v).length = size
  ofBytes_toBytes : ∀ v, ofBytes (toBytes v) = v

/-- The bytes of a `std::string`. -/
def str_bytes (s : String) : List Byte := s.data.map Char.toNat

/-- Whether the characters contain the two-character sequence `{}`. -/
def has_marker_chars : List Char → Bool
  | [] => false
  | c :: cs => (c == '{' && cs.head? == some '}') || has_marker_chars cs

/-- The test `s.find("{}") != npos`. -/
def has_marker (s : String) : Bool := has_marker_chars s.data

/-- Number of `{}` markers, read left to right. -/
def count_markers : List Char → Nat
  | [] => 0
  | c :: cs => (if c == '{' && cs.head? == some '}' then 1 else 0) + count_markers cs

/-- Replace the first `{}` marker by `arg`. -/
def substitute_marker (arg : List Char) : List Char → List Char
  | [] => []
  | c :: cs => if c == '{' && cs.head? == some '}' then arg ++ cs.tail
               else c :: substitute_marker arg cs

/-- Modelled from the spec: `fmt::format(template, var)` with one argument (the
`fmt` library is not among the sources). A template with exactly one marker has
the rendered value put in its place; a template with more than one marker raises
`format_error`. -/
def fmt_format (template : String) (arg : String) : Except Error String :=
  if count_markers template.data ≤ 1 then .ok ⟨substitute_marker arg.data template.data⟩
  else .error .format_error

namespace details

/-- The function `details::check_length_matches`. -/
def check_length_matches (actual_len expected_len : Nat) : Except Error Nat :=
  if expected_len > 0 ∧ actual_len ≠ expected_len then
    .error (.vw_exception "Unexpected end of file encountered.")
  else .ok actual_len

/-- The function `details::write_text_mode_output`; `P.fmt var` is the rendering of
`var` by `fmt`. -/
def write_text_mode_output {T : Type} (P : Pod T) (io : io_buf) (var : T)
    (name_or_readable_field_template : String) : Outcome Nat :=
  if name_or_readable_field_template = "" then (.ok 0, io)
  else
    let formatted : Except Error String :=
      if has_marker name_or_readable_field_template then
        fmt_format name_or_readable_field_template (P.fmt var)
      else .ok (name_or_readable_field_template ++ " = " ++ P.fmt var ++ "\n")
    match formatted with
    | .error e => (.error e, io)
    | .ok message =>
      let (actual, io1) := io.bin_write_fixed (str_bytes message) message.length
      (check_length_matches actual message.length, io1)

end details

/-- The overload `read_model_field(io_buf&, T&)` for a POD type: the bytes read
overwrite the leading bytes of `var`. -/
def read_model_field_pod {T : Type} (P : Pod T) (io : io_buf) (var : T) : Outcome (T × Nat) :=
  let len := P.size
  let ((data, actual), io1) := io.bin_read_fixed len
  match details.check_length_matches actual len with
  | .error e => (.error e, io1)
  | .ok n => (.ok (P.ofBytes (data ++ (P.toBytes var).drop actual), n), io1)

/-- The overload `write_model_field(io_buf&, const T&, const std::string&, bool)`
for a POD type. -/
def write_model_field_pod {T : Type} (P : Pod T) (io : io_buf) (var : T)
    (name_or_readable_field_template : String) (text : Bool) : Outcome Nat :=
  if text then details.write_text_mode_output P io var name_or_readable_field_template
  else
    let data := P.toBytes var
    let len := P.size
    let (actual, io1) := io.bin_write_fixed data len
    (details.check_length_matches actual len, io1)

/-- Little-endian bytes of a `uint64_t`, its representation on the platforms the
model files are written on. -/
def uint64_bytes (v : uint64_t) : List Byte :=
  (List.range 8).map (fun i => v.val / 256 ^ i % 256)

/-- The `uint64_t` a sequence of little-endian bytes stands for. -/
def uint64_of_bytes (bs : List Byte) : uint64_t :=
  to_uint64 (bs.foldr (fun b acc => b % 256 + 256 * acc) 0)

/-- The POD type `uint64_t`; `fmt` renders it in decimal. -/
def pod_uint64 : Pod uint64_t where
  size := 8
  toBytes := uint64_bytes
  ofBytes := uint64_of_bytes
  fmt := fun v => toString v.val
  uninit := 0
  size_pos := by decide
  size_lt := by decide
  toBytes_length := fun v => by simp [uint64_bytes]
  ofBytes_toBytes := fun v => by
    obtain ⟨n, hn⟩ := v
    apply Fin.ext
    simp only [uint64_of_bytes, uint64_bytes, to_uint64, List.range, List.range.loop, List.map,
      List.foldr, WORD] at hn ⊢
    norm_num
    omega

/-- The overloads of `read_model_field` and `write_model_field` that overload
resolution selects for a type `T`, together with the value of a local variable
declared by `T v;` (or `std::pair<K, V> pair;`). -/
structure ModelField (T : Type) where
  fresh : T
  read : io_buf → T → Outcome (T × Nat)
  write : io_buf → T → String → Bool → Outcome Nat

/-- The overloads for a POD type. -/
def pod_field {T : Type} (P : Pod T) : ModelField T where
  fresh := P.uninit
  read := read_model_field_pod P
  write := write_model_field_pod P

/-- The label `fmt::format("{}[{}]", upstream_name, key)`. -/
def index_label (upstream_name key : String) : String := upstream_name ++ "[" ++ key ++ "]"

/-- The rendering of the loop counter `uint64_t i` after `i` increments. -/
def fmt_counter (i : Nat) : String := toString (to_uint64 i).val

/-- The loop `for (i = 0; i < n; ++i) { T v; bytes += read_model_field(io, v); add(v); }`
shared by the vector, set and priority-queue readers; `add` is `push_back`,
`insert` or `push`. -/
def read_elements_loop {T C : Type} (E : ModelField T) (add : T → C → C) :
    Nat → io_buf → C → Nat → Outcome (C × Nat)
  | 0, io, c, bytes => (.ok (c, bytes), io)
  | n + 1, io, c, bytes =>
    match E.read io E.fresh with
    | (.error e, io1) => (.error e, io1)
    | (.ok (v, k), io1) => read_elements_loop E add n io1 (add v c) (add_bytes bytes k)

/-- The loop writing the elements `vs` under the labels `upstream_name[i]`,
`upstream_name[i+1]`, ..., shared by the vector and set writers. -/
def write_elements_loop {T : Type} (E : ModelField T) (upstream_name : String) (text : Bool) :
    List T → Nat → io_buf → Nat → Outcome Nat
  | [], _, io, bytes => (.ok bytes, io)
  | v :: vs, i, io, bytes =>
    match E.write io v (index_label upstream_name (fmt_counter i)) text with
    | (.error e, io1) => (.error e, io1)
    | (.ok k, io1) => write_elements_loop E upstream_name text vs (i + 1) io1 (add_bytes bytes k)

/-- The statements `uint64_t n; bytes += read_model_field(io, n);` that open every
container reader. -/
def read_count (io : io_buf) : Outcome (uint64_t × Nat) :=
  match read_model_field_pod pod_uint64 io pod_uint64.uninit with
  | (.error e, io1) => (.error e, io1)
  | (.ok (n, k), io1) => (.ok (n, add_bytes 0 k), io1)

/-- The statement `bytes += write_model_field(io, n, upstream_name + ".size()", text);`
that opens every container writer, `n` being the size cast to `uint64_t`. -/
def write_count (io : io_buf) (size : Nat) (upstream_name : String) (text : Bool) : Outcome Nat :=
  match write_model_field_pod pod_uint64 io (to_uint64 size) (upstream_name ++ ".size()") text with
  | (.error e, io1) => (.error e, io1)
  | (.ok k, io1) => (.ok (add_bytes 0 k), io1)

/-! ### `std::vector<T>`: a list, `push_back` appends at the end -/

/-- The overload `read_model_field(io_buf&, std::vector<T>&)`. -/
def read_model_field_vector {T : Type} (E : ModelField T) (io : io_buf) (vec : List T) :
    Outcome (List T × Nat) :=
  match read_count io with
  | (.error e, io1) => (.error e, io1)
  | (.ok (vec_size, bytes), io1) =>
    read_elements_loop E (fun v vec => vec ++ [v]) vec_size.val io1 vec bytes

/-- The overload `write_model_field(io_buf&, const std::vector<T>&, ...)`; the loop
visits `vec[i]` for `i < vec_size`. -/
def write_model_field_vector {T : Type} (E : ModelField T) (io : io_buf) (vec : List T)
    (upstream_name : String) (text : Bool) : Outcome Nat :=
  if has_marker upstream_name then
    (.error (.vw_exception "Field template not allowed for vector."), io)
  else
    match write_count io vec.length upstream_name text with
    | (.error e, io1) => (.error e, io1)
    | (.ok bytes, io1) =>
      write_elements_loop E upstream_name text (vec.take (to_uint64 vec.length).val) 0 io1 bytes

/-- The overloads for `std::vector<T>`. -/
def vector_field {T : Type} (E : ModelField T) : ModelField (List T) where
  fresh := []
  read := read_model_field_vector E
  write := write_model_field_vector E

/-! ### `std::set<T>`: the elements in ascending order, without repetition -/

/-- The call `set.insert(v)`. -/
def set_insert {T : Type} [LinearOrder T] (v : T) : List T → List T
  | [] => [v]
  | x :: xs =>
    if v < x then v :: x :: xs
    else if x < v then x :: set_insert v xs
    else x :: xs

/-- The overload `read_model_field(io_buf&, std::set<T>&)`. -/
def read_model_field_set {T : Type} [LinearOrder T] (E : ModelField T) (io : io_buf)
    (set : List T) : Outcome (List T × Nat) :=
  match read_count io with
  | (.error e, io1) => (.error e, io1)
  | (.ok (set_size, bytes), io1) => read_elements_loop E set_insert set_size.val io1 set bytes

/-- The overload `write_model_field(io_buf&, const std::set<T>&, ...)`; the loop
visits every element of the set in its order. -/
def write_model_field_set {T : Type} (E : ModelField T) (io : io_buf) (set : List T)
    (upstream_name : String) (text : Bool) : Outcome Nat :=
  if has_marker upstream_name then
    (.error (.vw_exception "Field template not allowed for set."), io)
  else
    match write_count io set.length upstream_name text with
    | (.error e, io1) => (.error e, io1)
    | (.ok bytes, io1) => write_elements_loop E upstream_name text set 0 io1 bytes

/-- The overloads for `std::set<T>`. -/
def set_field {T : Type} [LinearOrder T] (E : ModelField T) : ModelField (List T) where
  fresh := []
  read := read_model_field_set E
  write := write_model_field_set E

/-! ### `std::pair<F, S>` -/

/-- The overload `read_model_field(io_buf&, std::pair<F, S>&)`. -/
def read_model_field_pair {F S : Type} (EF : ModelField F) (ES : ModelField S) (io : io_buf)
    (pair : F × S) : Outcome ((F × S) × Nat) :=
  match EF.read io pair.1 with
  | (.error e, io1) => (.error e, io1)
  | (.ok (first, k1), io1) =>
    match ES.read io1 pair.2 with
    | (.error e, io2) => (.error e, io2)
    | (.ok (second, k2), io2) => (.ok ((first, second), add_bytes (add_bytes 0 k1) k2), io2)

/-- The overload `write_model_field(io_buf&, const std::pair<F, S>&, ...)`. -/
def write_model_field_pair {F S : Type} (EF : ModelField F) (ES : ModelField S) (io : io_buf)
    (pair : F × S) (upstream_name : String) (text : Bool) : Outcome Nat :=
  if has_marker upstream_name then
    (.error (.vw_exception "Field template not allowed for pair."), io)
  else
    match EF.write io pair.1 (upstream_name ++ ".first") text with
    | (.error e, io1) => (.error e, io1)
    | (.ok k1, io1) =>
      match ES.write io1 pair.2 (upstream_name ++ ".second") text with
      | (.error e, io2) => (.error e, io2)
      | (.ok k2, io2) => (.ok (add_bytes (add_bytes 0 k1) k2), io2)

/-- The overloads for `std::pair<F, S>`. -/
def pair_field {F S : Type} (EF : ModelField F) (ES : ModelField S) : ModelField (F × S) where
  fresh := (EF.fresh, ES.fresh)
  read := read_model_field_pair EF ES
  write := write_model_field_pair EF ES

/-! ### `std::priority_queue<T>`: the stored elements, in the order of the
underlying container; `top` is a largest element, `pop` removes it, `push` adds one -/

/-- The call `pq.push(v)`. -/
def pq_push {T : Type} (v : T) (pq : List T) : List T := pq ++ [v]

/-- The call `pq.top()` on the non-empty queue `x :: xs`. -/
def pq_top {T : Type} [LinearOrder T] (x : T) (xs : List T) : T := xs.foldl max x

/-- The call `pq.pop()`. -/
def pq_pop {T : Type} [LinearOrder T] : List T → List T
  | [] => []
  | x :: xs => (x :: xs).erase (pq_top x xs)

/-- The elements that `fuel` turns of `top`/`pop` deliver, in this order. -/
def pq_pop_order {T : Type} [LinearOrder T] : Nat → List T → List T
  | 0, _ => []
  | _ + 1, [] => []
  | fuel + 1, x :: xs => pq_top x xs :: pq_pop_order fuel (pq_pop (x :: xs))

/-- The elements of a queue in the order in which `top`/`pop` deliver them until
the queue is empty (`pq.size()` turns). -/
def pop_sequence {T : Type} [LinearOrder T] (pq : List T) : List T :=
  pq_pop_order pq.length pq

/-- The overload `read_model_field(io_buf&, std::priority_queue<T>&)`. -/
def read_model_field_priority_queue {T : Type} (E : ModelField T) (io : io_buf)
    (pq : List T) : Outcome (List T × Nat) :=
  match read_count io with
  | (.error e, io1) => (.error e, io1)
  | (.ok (queue_size, bytes), io1) => read_elements_loop E pq_push queue_size.val io1 pq bytes

/-- The loop `while (!pq_cp.empty())` of the priority-queue writer. Every turn
removes one element, so the loop makes at most `pq_cp.size()` turns: `fuel` is
that bound. -/
def write_priority_queue_loop {T : Type} [LinearOrder T] (E : ModelField T)
    (upstream_name : String) (text : Bool) : Nat → List T → Nat → io_buf → Nat → Outcome Nat
  | 0, _, _, io, bytes => (.ok bytes, io)
  | _ + 1, [], _, io, bytes => (.ok bytes, io)
  | fuel + 1, x :: xs, i, io, bytes =>
    let v := pq_top x xs
    match E.write io v (index_label upstream_name (fmt_counter i)) text with
    | (.error e, io1) => (.error e, io1)
    | (.ok k, io1) =>
      write_priority_queue_loop E upstream_name text fuel (pq_pop (x :: xs)) (i + 1) io1
        (add_bytes bytes k)

/-- The overload `write_model_field(io_buf&, const std::priority_queue<T>&, ...)`. -/
def write_model_field_priority_queue {T : Type} [LinearOrder T] (E : ModelField T)
    (io : io_buf) (pq : List T) (upstream_name : String) (text : Bool) : Outcome Nat :=
  if has_marker upstream_name then
    (.error (.vw_exception "Field template not allowed for priority_queue."), io)
  else
    let pq_cp := pq
    match write_count io pq_cp.length upstream_name text with
    | (.error e, io1) => (.error e, io1)
    | (.ok bytes, io1) =>
      write_priority_queue_loop E upstream_name text pq_cp.length pq_cp 0 io1 bytes

/-- The overloads for `std::priority_queue<T>`. -/
def priority_queue_field {T : Type} [LinearOrder T] (E : ModelField T) : ModelField (List T) where
  fresh := []
  read := read_model_field_priority_queue E
  write := write_model_field_priority_queue E

/-! ### `std::map<K, V>`: the entries in ascending key order, one for each key -/

/-- The statement `map[k] = v`. -/
def map_assign {K V : Type} [LinearOrder K] (k : K) (v : V) : List (K × V) → List (K × V)
  | [] => [(k, v)]
  | e :: m =>
    if k < e.1 then (k, v) :: e :: m
    else if e.1 < k then e :: map_assign k v m
    else (e.1, v) :: m

/-- The overload `read_model_field(io_buf&, std::map<K, V>&)`. -/
def read_model_field_map {K V : Type} [LinearOrder K] (EK : ModelField K) (EV : ModelField V)
    (io : io_buf) (map : List (K × V)) : Outcome (List (K × V) × Nat) :=
  match read_count io with
  | (.error e, io1) => (.error e, io1)
  | (.ok (map_size, bytes), io1) =>
    read_elements_loop (pair_field EK EV) (fun pair map => map_assign pair.1 pair.2 map)
      map_size.val io1 map bytes

/-- The loop over the entries of the map writer; `fmtK` renders a key for the
label of its value. -/
def write_map_loop {K V : Type} (EK : ModelField K) (EV : ModelField V) (fmtK : K → String)
    (upstream_name : String) (text : Bool) :
    List (K × V) → Nat → io_buf → Nat → Outcome Nat
  | [], _, io, bytes => (.ok bytes, io)
  | pair :: rest, i, io, bytes =>
    match EK.write io pair.1 (upstream_name ++ ".key" ++ fmt_counter i) text with
    | (.error e, io1) => (.error e, io1)
    | (.ok k1, io1) =>
      match EV.write io1 pair.2 (index_label upstream_name (fmtK pair.1)) text with
      | (.error e, io2) => (.error e, io2)
      | (.ok k2, io2) =>
        write_map_loop EK EV fmtK upstream_name text rest (i + 1) io2
          (add_bytes (add_bytes bytes k1) k2)

/-- The overload `write_model_field(io_buf&, const std::map<K, V>&, ...)`. -/
def write_model_field_map {K V : Type} (EK : ModelField K) (EV : ModelField V)
    (fmtK : K → String) (io : io_buf) (map : List (K × V)) (upstream_name : String)
    (text : Bool) : Outcome Nat :=
  if has_marker upstream_name then
    (.error (.vw_exception "Field template not allowed for map."), io)
  else
    match write_count io map.length upstream_name text with
    | (.error e, io1) => (.error e, io1)
    | (.ok bytes, io1) => write_map_loop EK EV fmtK upstream_name text map 0 io1 bytes

/-- The overloads for `std::map<K, V>`. -/
def map_field {K V : Type} [LinearOrder K] (EK : ModelField K) (EV : ModelField V)
    (fmtK : K → String) : ModelField (List (K × V)) where
  fresh := []
  read := read_model_field_map EK EV
  write := write_model_field_map EK EV fmtK

/-- A label the composite writers accept: one without the marker `{}`. -/
def plain_label (s : String) : Prop := has_marker s = false

/-- Every label: the binary POD writer does not look at its label. -/
def any_label (_ : String) : Prop := True

/-- The overloads `E` are a faithful binary codec with encoding `enc` on the values
satisfying `ok`, when called with a label satisfying `lab`: writing `v` in binary
mode into a sink without a capacity limit appends `enc v` and returns its length
(as a `size_t`), and reading into a fresh variable from a source that starts with
`enc v` gives `v` and the same count and consumes exactly `enc v`. -/
structure BinaryCodec {T : Type} (E : ModelField T) (lab : String → Prop) (ok : T → Prop)
    (enc : T → List Byte) : Prop where
  write_eq : ∀ (v : T), ok v → ∀ (io : io_buf) (name : String), io.room = none → lab name →
    E.write io v name false
      = (.ok ((enc v).length % WORD), { io with written := io.written ++ enc v })
  read_eq : ∀ (v : T), ok v → ∀ (src : io_buf) (rest : List Byte), src.unread = enc v ++ rest →
    E.read src E.fresh = (.ok (v, (enc v).length % WORD), { src with unread := rest })

/-- The binary encoding of a sequence: the 8 bytes of its size, then the encodings
of its elements in order. -/
def vector_bytes {T : Type} (enc : T → List Byte) (vs : List T) : List Byte :=
  uint64_bytes (to_uint64 vs.length) ++ vs.flatMap enc

/-- The set that the insertions of the elements of `l`, one after the other, build
from the empty set. -/
def set_of_inserts {T : Type} [LinearOrder T] (l : List T) : List T :=
  l.foldl (fun s v => set_insert v s) []

/-- The binary encoding of a map entry: the key, then the value. -/
def entry_bytes {K V : Type} (encK : K → List Byte) (encV : V → List Byte) (e : K × V) :
    List Byte :=
  encK e.1 ++ encV e.2

/-- The line that the text mode gives a field by default: the name, ` = `, the
value and a line feed. -/
def text_line (name value : String) : String := name ++ " = " ++ value ++ "\n"

/-- The lines `L[i] = <v>` for the elements `vs`, numbered from `i`. -/
def vector_lines {T : Type} (fmt : T → String) (L : String) : Nat → List T → String
  | _, [] => ""
  | i, v :: vs =>
    text_line (L ++ "[" ++ toString i ++ "]") (fmt v) ++ vector_lines fmt L (i + 1) vs

/-- The text of a sequence `S` under the label `L`: the line `L.size() = n`, then
the lines `L[i] = <S[i]>` for `i = 0, ..., n - 1`. -/
def vector_text {T : Type} (fmt : T → String) (L : String) (S : List T) : String :=
  text_line (L ++ ".size()") (toString S.length) ++ vector_lines fmt L 0 S

/-- The exception raised on a short transfer. -/
def truncated : Error := .vw_exception "Unexpected end of file encountered."

/-- The type `uint32_t` (`unsigned`). -/
abbrev uint32_t := Fin (2 ^ 32)

/-- The POD type `uint32_t`: four little-endian bytes; `fmt` renders it in decimal. -/
def pod_uint32 : Pod uint32_t where
  size := 4
  toBytes := fun v => (List.range 4).map (fun i => v.val / 256 ^ i % 256)
  ofBytes := fun bs =>
    ⟨bs.foldr (fun b acc => b % 256 + 256 * acc) 0 % 2 ^ 32, Nat.mod_lt _ (by decide)⟩
  fmt := fun v => toString v.val
  uninit := 0
  size_pos := by decide
  size_lt := by decide
  toBytes_length := fun v => by simp
  ofBytes_toBytes := fun v => by
    obtain ⟨n, hn⟩ := v
    apply Fin.ext
    simp only [List.range, List.range.loop, List.map, List.foldr] at hn ⊢
    norm_num
    omega

/-- The type `char`, a value being the byte it holds. -/
abbrev char_t := Fin 256

/-- The POD type `char`: one byte; `fmt` renders it as the character it stands for. -/
def pod_char : Pod char_t where
  size := 1
  toBytes := fun c => [c.val]
  ofBytes := fun bs => ⟨bs.headD 0 % 256, Nat.mod_lt _ (by decide)⟩
  fmt := fun c => String.singleton (Char.ofNat c.val)
  uninit := 0
  size_pos := by decide
  size_lt := by decide
  toBytes_length := fun _ => rfl
  ofBytes_toBytes := fun c => by
    apply Fin.ext
    simp [Nat.mod_eq_of_lt c.isLt]

/-- The lines `L.key<i> = <k>` and `L[<k>] = <v>` for the entries `es`, numbered
from `i`. -/
def map_lines {K V : Type} (fmtK : K → String) (fmtV : V → String) (L : String) :
    Nat → List (K × V) → String
  | _, [] => ""
  | i, e :: es =>
    text_line (L ++ ".key" ++ toString i) (fmtK e.1)
      ++ text_line (L ++ "[" ++ fmtK e.1 ++ "]") (fmtV e.2)
      ++ map_lines fmtK fmtV L (i + 1) es

/-- The text of a map `M` under the label `L`: the line `L.size() = n`, then for
the `i`-th entry `(k, v)` the lines `L.key<i> = <k>` and `L[<k>] = <v>`. -/
def map_text {K V : Type} (fmtK : K → String) (fmtV : V → String) (L : String)
    (M : List (K × V)) : String :=
  text_line (L ++ ".size()") (toString M.length) ++ map_lines fmtK fmtV L 0 M

/-- The value that a map holds for the key `k` (`map.find(k)`), if any. -/
def map_lookup {K V : Type} [LinearOrder K] (k : K) : List (K × V) → Option V
  | [] => none
  | e :: m => if e.1 = k then some e.2 else map_lookup k m

/-- The bytes of the default lines `name = value` of a list of fields, given as
pairs of a name and the text of a value. -/
def default_bytes (fields : List (String × String)) : List Byte :=
  fields.flatMap (fun f => str_bytes (text_line f.1 f.2))

/-- The field of a scalar `v` under the label `L`: its name and its text. -/
def pod_fields {T : Type} (P : Pod T) (L : String) (v : T) : List (String × String) :=
  [(L, P.fmt v)]

/-- The fields of the elements `vs` of a container under the label `L`, numbered
from `i`: the fields that `r` gives each element under its label `L[i]`. -/
def element_fields {T : Type} (r : String → T → List (String × String)) (L : String) :
    Nat → List T → List (String × String)
  | _, [] => []
  | i, v :: vs => r (L ++ "[" ++ toString i ++ "]") v ++ element_fields r L (i + 1) vs

/-- The fields of a container with the elements `vs` (in the order in which the
writer visits them) under the label `L`: the field `L.size()`, then the fields of
the elements. -/
def sequence_fields {T : Type} (r : String → T → List (String × String)) (L : String)
    (vs : List T) : List (String × String) :=
  (L ++ ".size()", toString vs.length) :: element_fields r L 0 vs

/-- The fields of a pair under the label `L`: those of `first` under `L.first`,
then those of `second` under `L.second`. -/
def pair_fields {F S : Type} (r1 : String → F → List (String × String))
    (r2 : String → S → List (String × String)) (L : String) (p : F × S) :
    List (String × String) :=
  r1 (L ++ ".first") p.1 ++ r2 (L ++ ".second") p.2

/-- The fields of the entries `es` of a map under the label `L`, numbered from `i`:
for each entry the field `L.key<i>` of its key, then the fields that `rV` gives its
value under the label `L[<key text>]`. -/
def entry_fields {K V : Type} (fmtK : K → String) (rV : String → V → List (String × String))
    (L : String) : Nat → List (K × V) → List (String × String)
  | _, [] => []
  | i, e :: es =>
    (L ++ ".key" ++ toString i, fmtK e.1)
      :: (rV (L ++ "[" ++ fmtK e.1 ++ "]") e.2 ++ entry_fields fmtK rV L (i + 1) es)

/-- The fields of a map `M` under the label `L`: the field `L.size()`, then the
fields of the entries. -/
def map_fields {K V : Type} (fmtK : K → String) (rV : String → V → List (String × String))
    (L : String) (M : List (K × V)) : List (String × String) :=
  (L ++ ".size()", toString M.length) :: entry_fields fmtK rV L 0 M

/-- The overloads `E` render a value `v` satisfying `ok` in text mode as the
default lines of the fields `r name v`: under a label `name` without the marker
(and not empty when `needs_name` is set, the case of a scalar) the write into a
sink without a capacity limit returns, appends exactly the default lines of these
fields, and returns their length (as a `size_t`). -/
def RendersAs {T : Type} (E : ModelField T) (needs_name : Bool)
    (r : String → T → List (String × String)) (ok : T → Prop) : Prop :=
  ∀ (v : T), ok v → ∀ (io : io_buf) (name : String), io.room = none →
    has_marker name = false → (needs_name = true → name ≠ "") →
    ∃ n : Nat,
      E.write io v name true
        = (.ok n, { io with written := io.written ++ default_bytes (r name v) }) ∧
      n % WORD = (default_bytes (r name v)).length % WORD

/-- The overloads selected for a nested composite of scalars, with the fields of a
value and the values whose container sizes fit a `uint64_t`: a scalar (flag
`false`), or a vector, set, priority queue or pair of such, or a map from a scalar
key, whose text has no marker, to such (flag `true`). -/
inductive Nested : (T : Type) → ModelField T → Bool → (String → T → List (String × String)) →
    (T → Prop) → Prop where
  | pod {T : Type} (P : Pod T) : Nested T (pod_field P) false (pod_fields P) (fun _ => True)
  | vector {T : Type} {E : ModelField T} {c : Bool} {r : String → T → List (String × String)}
      {ok : T → Prop} (h : Nested T E c r ok) :
      Nested (List T) (vector_field E) true (sequence_fields r)
        (fun vs => vs.length < WORD ∧ ∀ v ∈ vs, ok v)
  | set {T : Type} [LinearOrder T] {E : ModelField T} {c : Bool}
      {r : String → T → List (String × String)} {ok : T → Prop} (h : Nested T E c r ok) :
      Nested (List T) (set_field E) true (sequence_fields r)
        (fun vs => vs.length < WORD ∧ ∀ v ∈ vs, ok v)
  | priority_queue {T : Type} [LinearOrder T] {E : ModelField T} {c : Bool}
      {r : String → T → List (String × String)} {ok : T → Prop} (h : Nested T E c r ok) :
      Nested (List T) (priority_queue_field E) true
        (fun L pq => sequence_fields r L (pop_sequence pq))
        (fun vs => vs.length < WORD ∧ ∀ v ∈ vs, ok v)
  | pair {F S : Type} {EF : ModelField F} {ES : ModelField S} {c1 c2 : Bool}
      {r1 : String → F → List (String × String)} {r2 : String → S → List (String × String)}
      {ok1 : F → Prop} {ok2 : S → Prop} (h1 : Nested F EF c1 r1 ok1)
      (h2 : Nested S ES c2 r2 ok2) :
      Nested (F × S) (pair_field EF ES) true (pair_fields r1 r2) (fun p => ok1 p.1 ∧ ok2 p.2)
  | map {K V : Type} [LinearOrder K] (PK : Pod K) (hkey : ∀ k, has_marker (PK.fmt k) = false)
      {EV : ModelField V} {c : Bool} {rV : String → V → List (String × String)}
      {okV : V → Prop} (h : Nested V EV c rV okV) :
      Nested (List (K × V)) (map_field (pod_field PK) EV PK.fmt) true (map_fields PK.fmt rV)
        (fun M => M.length < WORD ∧ ∀ e ∈ M, okV e.2)

/-! ## Properties -/

/-! ### Length check and POD values -/

theorem check_length_matches_self (n : Nat) : details.check_length_matches n n = .ok n := by
  simp [details.check_length_matches]

theorem check_length_matches_short {actual expected : Nat} (h : actual < expected) :
    details.check_length_matches actual expected = .error truncated := by
  have h1 : expected > 0 ∧ actual ≠ expected := ⟨by omega, by omega⟩
  simp [details.check_length_matches, h1, truncated]

theorem add_bytes_lt (b k : Nat) : add_bytes b k < WORD :=
  Nat.mod_lt _ (by decide)

theorem to_uint64_val {n : Nat} (h : n < WORD) : (to_uint64 n).val = n := by
  simp [to_uint64, Nat.mod_eq_of_lt h]

theorem bin_write_fixed_unbounded (io : io_buf) (h : io.room = none) (data : List Byte) :
    io.bin_write_fixed data data.length
      = (data.length, { io with written := io.written ++ data }) := by
  cases io with
  | mk w r u =>
    simp only at h
    subst h
    simp [io_buf.bin_write_fixed]

/-- Binary write of a POD value into a sink that takes every byte. -/
theorem write_pod_binary {T : Type} (P : Pod T) (io : io_buf) (h : io.room = none) (v : T)
    (name : String) :
    write_model_field_pod P io v name false
      = (.ok P.size, { io with written := io.written ++ P.toBytes v }) := by
  have hw := bin_write_fixed_unbounded io h (P.toBytes v)
  rw [P.toBytes_length] at hw
  simp [write_model_field_pod, hw, check_length_matches_self]

/-- Read of a POD value from a source that starts with its bytes. -/
theorem read_pod_bytes {T : Type} (P : Pod T) (src : io_buf) (v var : T) (rest : List Byte)
    (h : src.unread = P.toBytes v ++ rest) :
    read_model_field_pod P src var = (.ok (v, P.size), { src with unread := rest }) := by
  have hl := P.toBytes_length v
  have ht : src.unread.take P.size = P.toBytes v := by
    rw [h, ← hl, List.take_left]
  have hd : src.unread.drop P.size = rest := by
    rw [h, ← hl, List.drop_left]
  simp only [read_model_field_pod, io_buf.bin_read_fixed, ht, hd, hl,
    check_length_matches_self]
  have : List.drop P.size (P.toBytes var) = [] := by
    rw [List.drop_eq_nil_iff]
    exact le_of_eq (P.toBytes_length var)
  simp [this, P.ofBytes_toBytes]

/-- Read of a POD value from a source that holds fewer bytes than its size. -/
theorem read_pod_short {T : Type} (P : Pod T) (src : io_buf) (var : T)
    (h : src.unread.length < P.size) :
    (read_model_field_pod P src var).1 = .error truncated := by
  have hl : (src.unread.take P.size).length < P.size := by
    rw [List.length_take]
    omega
  simp only [read_model_field_pod, io_buf.bin_read_fixed, check_length_matches_short hl]

/-! ### The marker test -/

/-- The test `has_marker` holds exactly of the strings with the substring `{}`. -/
theorem has_marker_chars_iff (cs : List Char) :
    has_marker_chars cs = true ↔ ∃ a b : List Char, cs = a ++ '{' :: '}' :: b := by
  induction cs with
  | nil => simp [has_marker_chars]
  | cons c cs ih =>
    simp only [has_marker_chars, Bool.or_eq_true, Bool.and_eq_true, beq_iff_eq, ih]
    constructor
    · rintro (⟨hc, hh⟩ | ⟨a, b, hab⟩)
      · cases cs with
        | nil => simp at hh
        | cons d ds =>
          simp only [List.head?_cons, Option.some.injEq] at hh
          exact ⟨[], ds, by simp [hc, hh]⟩
      · exact ⟨c :: a, b, by simp [hab]⟩
    · rintro ⟨a, b, hab⟩
      cases a with
      | nil =>
        simp only [List.nil_append, List.cons.injEq] at hab
        left
        simp [hab.1, hab.2]
      | cons x a =>
        simp only [List.cons_append, List.cons.injEq] at hab
        right
        exact ⟨a, b, hab.2⟩

theorem has_marker_iff (s : String) :
    has_marker s = true ↔ ∃ a b : List Char, s.data = a ++ '{' :: '}' :: b :=
  has_marker_chars_iff s.data

/-! ### Claims on the length check, POD values and rejected labels -/

/-- C7: `check_length_matches(actual, expected)` fails with the truncated-I/O error
exactly when `expected > 0` and `actual ≠ expected`; in every other case, and so
whenever `expected = 0`, it returns `actual`. -/
theorem check_length_matches_spec (actual expected : Nat) :
    (details.check_length_matches actual expected = .error truncated
        ↔ (0 < expected ∧ actual ≠ expected)) ∧
    (details.check_length_matches actual expected = .ok actual
        ↔ ¬ (0 < expected ∧ actual ≠ expected)) ∧
    details.check_length_matches actual 0 = .ok actual := by
  have hgt : (expected > 0 ∧ actual ≠ expected) ↔ (0 < expected ∧ actual ≠ expected) :=
    Iff.rfl
  by_cases h : 0 < expected ∧ actual ≠ expected
  · simp [details.check_length_matches, truncated, hgt, h]
  · simp [details.check_length_matches, truncated, hgt, h]

/-- C5: when the sink transfers every byte of the request, a binary
`write_model_field` of a scalar `v` appends exactly `sizeof(v)` bytes to the sink
and returns `sizeof(v)`; `read_model_field` on a source that starts with those bytes
returns `sizeof(v)`, sets the variable to `v` whatever it held, and consumes exactly
those bytes. -/
theorem pod_round_trip {T : Type} (P : Pod T) (v : T) (name : String) (io : io_buf)
    (hio : (io.bin_write_fixed (P.toBytes v) P.size).1 = P.size) :
    ∃ (bytes : List Byte) (io1 : io_buf), bytes.length = P.size ∧
      write_model_field_pod P io v name false = (.ok P.size, io1) ∧
      io1.written = io.written ++ bytes ∧
      ∀ (src : io_buf) (rest : List Byte) (var : T), src.unread = bytes ++ rest →
        read_model_field_pod P src var = (.ok (v, P.size), { src with unread := rest }) := by
  refine ⟨P.toBytes v, (io.bin_write_fixed (P.toBytes v) P.size).2, P.toBytes_length v, ?_, ?_,
    fun src rest var h => read_pod_bytes P src v var rest h⟩
  · simp only [write_model_field_pod, Bool.false_eq_true, if_false, hio,
      check_length_matches_self]
  · have hk : (io.bin_write_fixed (P.toBytes v) P.size).2.written
        = io.written ++ (P.toBytes v).take (io.bin_write_fixed (P.toBytes v) P.size).1 := by
      cases hr : io.room <;> simp [io_buf.bin_write_fixed, hr]
    rw [hk, hio, ← P.toBytes_length v, List.take_length]

/-- Witness of C5: the `uint64_t` value 7 and a sink with room for 10 bytes. -/
theorem pod_round_trip_witness :
    ((⟨[], some 10, []⟩ : io_buf).bin_write_fixed (pod_uint64.toBytes 7) pod_uint64.size).1
      = pod_uint64.size ∧
    ∃ (bytes : List Byte) (io1 : io_buf), bytes.length = pod_uint64.size ∧
      write_model_field_pod pod_uint64 ⟨[], some 10, []⟩ 7 "x" false
        = (.ok pod_uint64.size, io1) ∧
      io1.written = (⟨[], some 10, []⟩ : io_buf).written ++ bytes ∧
      ∀ (src : io_buf) (rest : List Byte) (var : uint64_t), src.unread = bytes ++ rest →
        read_model_field_pod pod_uint64 src var
          = (.ok (7, pod_uint64.size), { src with unread := rest }) :=
  ⟨by decide, pod_round_trip pod_uint64 7 "x" ⟨[], some 10, []⟩ (by decide)⟩

/-- C9: a text-mode `write_model_field` of a scalar with an empty label leaves the
sink as it was and returns 0. -/
theorem empty_label_writes_nothing {T : Type} (P : Pod T) (v : T) (io : io_buf) :
    write_model_field_pod P io v "" true = (.ok 0, io) := by
  simp [write_model_field_pod, details.write_text_mode_output]

/-- C6: when the label contains the substring `{}`, each of the five composite
writers (vector, set, pair, map, priority queue) throws, in text and in binary
mode alike and for every value, and the sink is as it was before the call. -/
theorem composite_label_with_marker_rejected {T F S K V : Type} [LinearOrder T]
    (E : ModelField T) (EF : ModelField F) (ES : ModelField S) (EK : ModelField K)
    (EV : ModelField V) (fmtK : K → String) (io : io_buf) (name : String) (text : Bool)
    (hname : ∃ a b : List Char, name.data = a ++ '{' :: '}' :: b)
    (vec : List T) (set : List T) (pair : F × S) (map : List (K × V)) (pq : List T) :
    write_model_field_vector E io vec name text
      = (.error (.vw_exception "Field template not allowed for vector."), io) ∧
    write_model_field_set E io set name text
      = (.error (.vw_exception "Field template not allowed for set."), io) ∧
    write_model_field_pair EF ES io pair name text
      = (.error (.vw_exception "Field template not allowed for pair."), io) ∧
    write_model_field_map EK EV fmtK io map name text
      = (.error (.vw_exception "Field template not allowed for map."), io) ∧
    write_model_field_priority_queue E io pq name text
      = (.error (.vw_exception "Field template not allowed for priority_queue."), io) := by
  have h : has_marker name = true := (has_marker_iff name).mpr hname
  simp [write_model_field_vector, write_model_field_set, write_model_field_pair,
    write_model_field_map, write_model_field_priority_queue, h]

/-- Witness of C6: the label `a{}b`, a sink that already holds a byte, text mode. -/
theorem composite_label_with_marker_rejected_witness :
    (∃ a b : List Char, "a{}b".data = a ++ '{' :: '}' :: b) ∧
    write_model_field_vector (pod_field pod_uint64) ⟨[1], none, []⟩ [3, 1, 2] "a{}b" true
      = (.error (.vw_exception "Field template not allowed for vector."), ⟨[1], none, []⟩) ∧
    write_model_field_set (pod_field pod_uint64) ⟨[1], none, []⟩ [1, 2] "a{}b" true
      = (.error (.vw_exception "Field template not allowed for set."), ⟨[1], none, []⟩) ∧
    write_model_field_pair (pod_field pod_uint64) (pod_field pod_uint64) ⟨[1], none, []⟩
        (1, 2) "a{}b" true
      = (.error (.vw_exception "Field template not allowed for pair."), ⟨[1], none, []⟩) ∧
    write_model_field_map (pod_field pod_uint64) (pod_field pod_uint64) pod_uint64.fmt
        ⟨[1], none, []⟩ [(1, 2)] "a{}b" true
      = (.error (.vw_exception "Field template not allowed for map."), ⟨[1], none, []⟩) ∧
    write_model_field_priority_queue (pod_field pod_uint64) ⟨[1], none, []⟩ [5, 1, 9]
        "a{}b" true
      = (.error (.vw_exception "Field template not allowed for priority_queue."),
          ⟨[1], none, []⟩) :=
  ⟨⟨['a'], ['b'], rfl⟩,
    composite_label_with_marker_rejected (pod_field pod_uint64) (pod_field pod_uint64)
      (pod_field pod_uint64) (pod_field pod_uint64) (pod_field pod_uint64) pod_uint64.fmt
      ⟨[1], none, []⟩ "a{}b" true ⟨['a'], ['b'], rfl⟩ [3, 1, 2] [1, 2] (1, 2) [(1, 2)]
      [5, 1, 9]⟩

/-! ### Labels built by the composite writers -/

theorem has_marker_chars_append (a b : List Char) (ha : has_marker_chars a = false)
    (hb : has_marker_chars b = false) (hj : b.head? ≠ some '}') :
    has_marker_chars (a ++ b) = false := by
  induction a with
  | nil => simpa using hb
  | cons c a ih =>
    simp only [has_marker_chars, Bool.or_eq_false_iff] at ha
    simp only [List.cons_append, has_marker_chars, Bool.or_eq_false_iff]
    refine ⟨?_, ih ha.2⟩
    cases a with
    | nil =>
      cases b with
      | nil => simp
      | cons d b =>
        have hd : d ≠ '}' := by simpa using hj
        simp [hd]
    | cons d a => simpa using ha.1

theorem has_marker_chars_of_no_brace (cs : List Char) (h : ∀ c ∈ cs, c ≠ '{') :
    has_marker_chars cs = false := by
  induction cs with
  | nil => rfl
  | cons c cs ih =>
    have hc : c ≠ '{' := h c (List.mem_cons_self _ _)
    simp only [has_marker_chars, Bool.or_eq_false_iff]
    exact ⟨by simp [hc], ih (fun d hd => h d (List.mem_cons_of_mem _ hd))⟩

theorem digitChar_ne_brace (d : Nat) : Nat.digitChar d ≠ '{' ∧ Nat.digitChar d ≠ '}' := by
  rcases Nat.lt_or_ge d 16 with h | h
  · interval_cases d <;> decide
  · obtain ⟨e, rfl⟩ : ∃ e, d = e + 16 := ⟨d - 16, by omega⟩
    have hstar : Nat.digitChar (e + 16) = '*' := by
      simp [Nat.digitChar]
    rw [hstar]
    decide

theorem toDigitsCore_no_brace (fuel n : Nat) (ds : List Char)
    (h : ∀ c ∈ ds, c ≠ '{' ∧ c ≠ '}') :
    ∀ c ∈ Nat.toDigitsCore 10 fuel n ds, c ≠ '{' ∧ c ≠ '}' := by
  induction fuel generalizing n ds with
  | zero => simpa [Nat.toDigitsCore] using h
  | succ fuel ih =>
    have hcons : ∀ c ∈ Nat.digitChar (n % 10) :: ds, c ≠ '{' ∧ c ≠ '}' := by
      intro c hc
      rcases List.mem_cons.mp hc with rfl | hc
      · exact digitChar_ne_brace _
      · exact h c hc
    simp only [Nat.toDigitsCore]
    split
    · exact hcons
    · exact ih _ _ hcons

/-- The decimal rendering of a number has no brace. -/
theorem toString_no_brace (n : Nat) : ∀ c ∈ (toString n).data, c ≠ '{' ∧ c ≠ '}' :=
  toDigitsCore_no_brace _ _ _ (by simp)

theorem has_marker_toString (n : Nat) : has_marker (toString n) = false :=
  has_marker_chars_of_no_brace _ (fun c hc => (toString_no_brace n c hc).1)

theorem head_toString (n : Nat) : (toString n).data.head? ≠ some '}' := by
  intro h
  have hm : '}' ∈ (toString n).data := List.mem_of_mem_head? h
  exact (toString_no_brace n _ hm).2 rfl

theorem has_marker_append_literal (name suffix : String) (h : has_marker name = false)
    (hs : has_marker suffix = false) (hj : suffix.data.head? ≠ some '}') :
    has_marker (name ++ suffix) = false := by
  simp only [has_marker, String.data_append]
  exact has_marker_chars_append _ _ h hs hj

theorem has_marker_index_label (name key : String) (h : has_marker name = false)
    (hk : has_marker key = false) : has_marker (index_label name key) = false := by
  have hd : (index_label name key).data = name.data ++ ('[' :: (key.data ++ [']'])) := by
    simp [index_label, String.data_append]
  have hk1 : has_marker_chars (key.data ++ [']']) = false :=
    has_marker_chars_append _ _ hk (by decide) (by decide)
  simp only [has_marker, hd]
  refine has_marker_chars_append _ _ h ?_ (by simp)
  simp [has_marker_chars, hk1]

theorem plain_index_label (name : String) (h : plain_label name) (i : Nat) :
    plain_label (index_label name (fmt_counter i)) :=
  has_marker_index_label name _ h (has_marker_toString _)

theorem plain_key_label (name : String) (h : plain_label name) (i : Nat) :
    plain_label (name ++ ".key" ++ fmt_counter i) :=
  has_marker_append_literal _ _
    (has_marker_append_literal name ".key" h (by decide) (by decide))
    (has_marker_toString _) (head_toString _)

theorem plain_size_label (name : String) (h : plain_label name) :
    plain_label (name ++ ".size()") :=
  has_marker_append_literal name ".size()" h (by decide) (by decide)

/-! ### Binary codecs -/

theorem pod_codec {T : Type} (P : Pod T) :
    BinaryCodec (pod_field P) any_label (fun _ => True) P.toBytes where
  write_eq := fun v _ io name hio _ => by
    rw [P.toBytes_length, Nat.mod_eq_of_lt P.size_lt]
    exact write_pod_binary P io hio v name
  read_eq := fun v _ src rest h => by
    rw [P.toBytes_length, Nat.mod_eq_of_lt P.size_lt]
    exact read_pod_bytes P src v P.uninit rest h

theorem BinaryCodec.weaken {T : Type} {E : ModelField T} {lab lab2 : String → Prop}
    {ok : T → Prop} {enc : T → List Byte} (h : BinaryCodec E lab ok enc)
    (hl : ∀ s, lab2 s → lab s) : BinaryCodec E lab2 ok enc where
  write_eq := fun v hv io name hio hn => h.write_eq v hv io name hio (hl name hn)
  read_eq := h.read_eq

/-- A POD type is a binary codec under the labels the composite writers build. -/
theorem pod_codec_plain {T : Type} (P : Pod T) :
    BinaryCodec (pod_field P) plain_label (fun _ => True) P.toBytes :=
  (pod_codec P).weaken (fun _ _ => trivial)

theorem uint64_bytes_length (n : uint64_t) : (uint64_bytes n).length = 8 := by
  simp [uint64_bytes]

theorem write_count_binary (io : io_buf) (hio : io.room = none) (size : Nat) (name : String) :
    write_count io size name false
      = (.ok 8, { io with written := io.written ++ uint64_bytes (to_uint64 size) }) := by
  have h := write_pod_binary pod_uint64 io hio (to_uint64 size) (name ++ ".size()")
  simp only [write_count, h]
  rfl

theorem read_count_bytes (src : io_buf) (n : uint64_t) (rest : List Byte)
    (h : src.unread = uint64_bytes n ++ rest) :
    read_count src = (.ok (n, 8), { src with unread := rest }) := by
  have hr := read_pod_bytes pod_uint64 src n pod_uint64.uninit rest h
  simp only [read_count, hr]
  rfl

theorem write_elements_binary {T : Type} {E : ModelField T} {lab : String → Prop}
    {ok : T → Prop} {enc : T → List Byte} (hE : BinaryCodec E lab ok enc) (name : String)
    (hl : ∀ i, lab (index_label name (fmt_counter i))) (vs : List T) (hvs : ∀ v ∈ vs, ok v)
    (i : Nat) (io : io_buf) (hio : io.room = none) (b : Nat) (hb : b < WORD) :
    write_elements_loop E name false vs i io b
      = (.ok ((b + (vs.flatMap enc).length) % WORD),
          { io with written := io.written ++ vs.flatMap enc }) := by
  induction vs generalizing i io b with
  | nil => simp [write_elements_loop, Nat.mod_eq_of_lt hb]
  | cons v vs ih =>
    have hw := hE.write_eq v (hvs v (List.mem_cons_self _ _)) io _ hio (hl i)
    simp only [write_elements_loop, hw]
    rw [ih (fun w hw => hvs w (List.mem_cons_of_mem _ hw)) (i + 1)
      { io with written := io.written ++ enc v } hio _ (add_bytes_lt b _)]
    simp only [List.flatMap_cons, List.length_append, List.append_assoc, add_bytes, WORD]
    congr 2
    omega

theorem read_elements_binary {T C : Type} {E : ModelField T} {lab : String → Prop}
    {ok : T → Prop} {enc : T → List Byte} (hE : BinaryCodec E lab ok enc) (add : T → C → C)
    (vs : List T) (hvs : ∀ v ∈ vs, ok v) (src : io_buf) (rest : List Byte) (c : C) (b : Nat)
    (hb : b < WORD) (h : src.unread = vs.flatMap enc ++ rest) :
    read_elements_loop E add vs.length src c b
      = (.ok (vs.foldl (fun c v => add v c) c, (b + (vs.flatMap enc).length) % WORD),
          { src with unread := rest }) := by
  induction vs generalizing src c b with
  | nil =>
    simp only [List.flatMap_nil, List.nil_append] at h
    simp [read_elements_loop, Nat.mod_eq_of_lt hb, ← h]
  | cons v vs ih =>
    have hr := hE.read_eq v (hvs v (List.mem_cons_self _ _)) src (vs.flatMap enc ++ rest)
      (by simpa [List.flatMap_cons, List.append_assoc] using h)
    simp only [List.length_cons, read_elements_loop, hr]
    rw [ih (fun w hw => hvs w (List.mem_cons_of_mem _ hw))
      { src with unread := vs.flatMap enc ++ rest } (add v c) _ (add_bytes_lt b _) rfl]
    simp only [List.flatMap_cons, List.length_append, List.foldl_cons, add_bytes, WORD]
    congr 3
    omega

theorem foldl_push_back {T : Type} (vs acc : List T) :
    vs.foldl (fun c v => c ++ [v]) acc = acc ++ vs := by
  induction vs generalizing acc with
  | nil => simp
  | cons v vs ih => simp [ih]

theorem write_vector_binary {T : Type} {E : ModelField T} {ok : T → Prop}
    {enc : T → List Byte} (hE : BinaryCodec E plain_label ok enc) (vs : List T)
    (hlen : vs.length < WORD) (hvs : ∀ v ∈ vs, ok v) (io : io_buf) (name : String)
    (hio : io.room = none) (hn : has_marker name = false) :
    write_model_field_vector E io vs name false
      = (.ok ((vector_bytes enc vs).length % WORD),
          { io with written := io.written ++ vector_bytes enc vs }) := by
  have hw := write_elements_binary hE name (plain_index_label name hn) vs hvs 0
    { io with written := io.written ++ uint64_bytes (to_uint64 vs.length) } hio 8
    (by decide)
  simp only [write_model_field_vector, hn, write_count_binary io hio, to_uint64_val hlen,
    List.take_length, hw, vector_bytes, List.length_append, uint64_bytes_length,
    List.append_assoc]
  simp

theorem read_vector_binary {T : Type} {E : ModelField T} {ok : T → Prop}
    {enc : T → List Byte} (hE : BinaryCodec E plain_label ok enc) (vs : List T)
    (hlen : vs.length < WORD) (hvs : ∀ v ∈ vs, ok v) (src : io_buf) (rest : List Byte)
    (h : src.unread = vector_bytes enc vs ++ rest) :
    read_model_field_vector E src []
      = (.ok (vs, (vector_bytes enc vs).length % WORD), { src with unread := rest }) := by
  have hc := read_count_bytes src (to_uint64 vs.length) (vs.flatMap enc ++ rest)
    (by simpa [vector_bytes, List.append_assoc] using h)
  have hr := read_elements_binary hE (fun v vec => vec ++ [v]) vs hvs
    { src with unread := vs.flatMap enc ++ rest } rest [] 8 (by decide) rfl
  simp only [read_model_field_vector, hc, to_uint64_val hlen, hr, foldl_push_back,
    vector_bytes, List.length_append, uint64_bytes_length, List.nil_append]

/-- The vector overloads are a binary codec when the element overloads are. -/
theorem vector_codec {T : Type} {E : ModelField T} {ok : T → Prop} {enc : T → List Byte}
    (hE : BinaryCodec E plain_label ok enc) :
    BinaryCodec (vector_field E) plain_label (fun vs => vs.length < WORD ∧ ∀ v ∈ vs, ok v)
      (vector_bytes enc) where
  write_eq := fun vs hvs io name hio hn => by
    simpa only [vector_field] using write_vector_binary hE vs hvs.1 hvs.2 io name hio hn
  read_eq := fun vs hvs src rest h => by
    simpa only [vector_field] using read_vector_binary hE vs hvs.1 hvs.2 src rest h

/-- C1: for a vector `S` whose element overloads form a binary codec (every POD
type does, by `pod_codec_plain`, and so do the composites built from codecs, by
`vector_codec` and its siblings) and a label without the marker, the binary
`write_model_field` succeeds, and `read_model_field` on the bytes it produced, with
an empty target vector, succeeds, returns the same byte count and leaves the target
equal to `S`. The size of a `std::vector` fits a `uint64_t`. -/
theorem vector_round_trip {T : Type} (E : ModelField T) (ok : T → Prop) (enc : T → List Byte)
    (hE : BinaryCodec E plain_label ok enc) (S : List T) (hlen : S.length < WORD)
    (hS : ∀ v ∈ S, ok v) (name : String) (hname : has_marker name = false) (io : io_buf)
    (hio : io.room = none) :
    ∃ (bytes : List Byte) (n : Nat),
      write_model_field_vector E io S name false
        = (.ok n, { io with written := io.written ++ bytes }) ∧
      read_model_field_vector E (io_buf.source bytes) [] = (.ok (S, n), io_buf.source []) := by
  have hw := write_vector_binary hE S hlen hS io name hio hname
  have hr := read_vector_binary hE S hlen hS (io_buf.source (vector_bytes enc S)) []
    (List.append_nil _).symm
  exact ⟨vector_bytes enc S, (vector_bytes enc S).length % WORD, hw, hr⟩

/-- Witness of C1: the vector `[3, 1, 2]` of `uint64_t` under the label `v`. -/
theorem vector_round_trip_witness :
    ([3, 1, 2] : List uint64_t).length < WORD ∧ has_marker "v" = false ∧
    io_buf.sink.room = none ∧
    ∃ (bytes : List Byte) (n : Nat),
      write_model_field_vector (pod_field pod_uint64) io_buf.sink [3, 1, 2] "v" false
        = (.ok n, { io_buf.sink with written := io_buf.sink.written ++ bytes }) ∧
      read_model_field_vector (pod_field pod_uint64) (io_buf.source bytes) []
        = (.ok ([3, 1, 2], n), io_buf.source []) :=
  ⟨by decide, by decide, rfl,
    vector_round_trip (pod_field pod_uint64) (fun _ => True) pod_uint64.toBytes
      (pod_codec_plain pod_uint64) [3, 1, 2] (by decide) (fun _ _ => trivial) "v" (by decide)
      io_buf.sink rfl⟩

/-! ### Sets -/

theorem mem_set_insert {T : Type} [LinearOrder T] (v x : T) (s : List T) :
    x ∈ set_insert v s ↔ x = v ∨ x ∈ s := by
  induction s with
  | nil => simp [set_insert]
  | cons y ys ih =>
    simp only [set_insert]
    split_ifs with h1 h2
    · simp
    · simp only [List.mem_cons, ih]
      tauto
    · have hvy : v = y := le_antisymm (not_lt.mp h2) (not_lt.mp h1)
      subst hvy
      simp

theorem set_insert_sorted {T : Type} [LinearOrder T] (v : T) (s : List T)
    (hs : s.Sorted (· < ·)) : (set_insert v s).Sorted (· < ·) := by
  induction s with
  | nil => simp [set_insert]
  | cons y ys ih =>
    have hy := List.sorted_cons.mp hs
    simp only [set_insert]
    split_ifs with h1 h2
    · refine List.sorted_cons.mpr ⟨?_, hs⟩
      intro b hb
      rcases List.mem_cons.mp hb with rfl | hb
      · exact h1
      · exact lt_trans h1 (hy.1 b hb)
    · refine List.sorted_cons.mpr ⟨?_, ih hy.2⟩
      intro b hb
      rcases (mem_set_insert v b ys).mp hb with rfl | hb
      · exact h2
      · exact hy.1 b hb
    · exact hs

theorem set_insert_last {T : Type} [LinearOrder T] (v : T) (s : List T)
    (h : ∀ x ∈ s, x < v) : set_insert v s = s ++ [v] := by
  induction s with
  | nil => rfl
  | cons y ys ih =>
    have hy : y < v := h y (List.mem_cons_self _ _)
    simp only [set_insert, not_lt.mpr (le_of_lt hy), if_false, hy, if_true, List.cons_append]
    rw [ih (fun x hx => h x (List.mem_cons_of_mem _ hx))]

theorem foldl_set_insert_sorted {T : Type} [LinearOrder T] (vs acc : List T)
    (h : (acc ++ vs).Sorted (· < ·)) :
    vs.foldl (fun s v => set_insert v s) acc = acc ++ vs := by
  induction vs generalizing acc with
  | nil => simp
  | cons v vs ih =>
    have h1 : ∀ x ∈ acc, x < v := by
      intro x hx
      exact (List.pairwise_append.mp h).2.2 x hx v (List.mem_cons_self _ _)
    simp only [List.foldl_cons, set_insert_last v acc h1]
    rw [ih (acc ++ [v]) (by simpa using h)]
    simp

theorem set_of_inserts_sorted {T : Type} [LinearOrder T] (l : List T) :
    (set_of_inserts l).Sorted (· < ·) := by
  have hgen : ∀ (l acc : List T), acc.Sorted (· < ·) →
      (l.foldl (fun s v => set_insert v s) acc).Sorted (· < ·) := by
    intro l
    induction l with
    | nil => intro acc h; simpa using h
    | cons v vs ih => intro acc h; exact ih _ (set_insert_sorted v acc h)
  exact hgen l [] List.sorted_nil

theorem mem_set_of_inserts {T : Type} [LinearOrder T] (l : List T) (x : T) :
    x ∈ set_of_inserts l ↔ x ∈ l := by
  have hgen : ∀ (l acc : List T),
      x ∈ l.foldl (fun s v => set_insert v s) acc ↔ x ∈ acc ∨ x ∈ l := by
    intro l
    induction l with
    | nil => intro acc; simp
    | cons v vs ih =>
      intro acc
      simp only [List.foldl_cons, ih, mem_set_insert, List.mem_cons]
      tauto
  simpa [set_of_inserts] using hgen l []

/-- A set is determined by its members: whatever the insertions, they build the
ascending list of the members. -/
theorem set_of_inserts_eq {T : Type} [LinearOrder T] (s l : List T) (hs : s.Sorted (· < ·))
    (hl : ∀ x, x ∈ l ↔ x ∈ s) : set_of_inserts l = s := by
  have h1 := set_of_inserts_sorted l
  apply List.eq_of_perm_of_sorted _ h1 hs
  rw [List.perm_ext_iff_of_nodup h1.nodup hs.nodup]
  intro x
  rw [mem_set_of_inserts, hl]

theorem write_set_binary {T : Type} {E : ModelField T} {ok : T → Prop}
    {enc : T → List Byte} (hE : BinaryCodec E plain_label ok enc) (s : List T)
    (hok : ∀ v ∈ s, ok v) (io : io_buf) (name : String) (hio : io.room = none)
    (hn : has_marker name = false) :
    write_model_field_set E io s name false
      = (.ok ((vector_bytes enc s).length % WORD),
          { io with written := io.written ++ vector_bytes enc s }) := by
  have hw := write_elements_binary hE name (plain_index_label name hn) s hok 0
    { io with written := io.written ++ uint64_bytes (to_uint64 s.length) } hio 8
    (by decide)
  simp only [write_model_field_set, hn, write_count_binary io hio, hw,
    vector_bytes, List.length_append, uint64_bytes_length, List.append_assoc]
  simp

theorem read_set_binary {T : Type} [LinearOrder T] {E : ModelField T} {ok : T → Prop}
    {enc : T → List Byte} (hE : BinaryCodec E plain_label ok enc) (s : List T)
    (hlen : s.length < WORD) (hs : s.Sorted (· < ·)) (hok : ∀ v ∈ s, ok v) (src : io_buf)
    (rest : List Byte) (h : src.unread = vector_bytes enc s ++ rest) :
    read_model_field_set E src []
      = (.ok (s, (vector_bytes enc s).length % WORD), { src with unread := rest }) := by
  have hc := read_count_bytes src (to_uint64 s.length) (s.flatMap enc ++ rest)
    (by simpa [vector_bytes, List.append_assoc] using h)
  have hr := read_elements_binary hE set_insert s hok
    { src with unread := s.flatMap enc ++ rest } rest [] 8 (by decide) rfl
  have hf := foldl_set_insert_sorted s [] (by simpa using hs)
  simp only [List.nil_append] at hf
  simp only [read_model_field_set, hc, to_uint64_val hlen, hr, hf, vector_bytes,
    List.length_append, uint64_bytes_length]

/-- The set overloads are a binary codec when the element overloads are. -/
theorem set_codec {T : Type} [LinearOrder T] {E : ModelField T} {ok : T → Prop}
    {enc : T → List Byte} (hE : BinaryCodec E plain_label ok enc) :
    BinaryCodec (set_field E) plain_label
      (fun s => s.length < WORD ∧ s.Sorted (· < ·) ∧ ∀ v ∈ s, ok v) (vector_bytes enc) where
  write_eq := fun s hs io name hio hn => by
    simpa only [set_field] using write_set_binary hE s hs.2.2 io name hio hn
  read_eq := fun s hs src rest h => by
    simpa only [set_field] using read_set_binary hE s hs.1 hs.2.1 hs.2.2 src rest h

/-- C4: the binary writer emits the size of a set and then its elements in
ascending order; a set built by any insertions `l` with the same members is the
same set and gives the same bytes; and reading the bytes into an empty set yields
the set, with the same members in the same order. -/
theorem set_round_trip {T : Type} [LinearOrder T] (E : ModelField T) (ok : T → Prop)
    (enc : T → List Byte) (hE : BinaryCodec E plain_label ok enc) (s : List T)
    (hs : s.Sorted (· < ·)) (hlen : s.length < WORD) (hok : ∀ v ∈ s, ok v) (l : List T)
    (hl : ∀ x, x ∈ l ↔ x ∈ s) (name : String) (hname : has_marker name = false) (io : io_buf)
    (hio : io.room = none) :
    ∃ (bytes : List Byte) (n : Nat),
      write_model_field_set E io s name false
        = (.ok n, { io with written := io.written ++ bytes }) ∧
      bytes = uint64_bytes (to_uint64 s.length) ++ s.flatMap enc ∧
      write_model_field_set E io (set_of_inserts l) name false
        = (.ok n, { io with written := io.written ++ bytes }) ∧
      read_model_field_set E (io_buf.source bytes) [] = (.ok (s, n), io_buf.source []) := by
  have hw := write_set_binary hE s hok io name hio hname
  have hr := read_set_binary hE s hlen hs hok (io_buf.source (vector_bytes enc s)) []
    (List.append_nil _).symm
  refine ⟨vector_bytes enc s, (vector_bytes enc s).length % WORD, hw, rfl, ?_, hr⟩
  rw [set_of_inserts_eq s l hs hl]
  exact hw

/-- Witness of C4: the set `{1, 2, 3}` of `uint64_t`, also built by inserting
3, 1, 2, 3 in this order. -/
theorem set_round_trip_witness :
    ([1, 2, 3] : List uint64_t).Sorted (· < ·) ∧ ([1, 2, 3] : List uint64_t).length < WORD ∧
    (∀ x : uint64_t, x ∈ [3, 1, 2, 3] ↔ x ∈ [1, 2, 3]) ∧ has_marker "s" = false ∧
    io_buf.sink.room = none ∧
    ∃ (bytes : List Byte) (n : Nat),
      write_model_field_set (pod_field pod_uint64) io_buf.sink [1, 2, 3] "s" false
        = (.ok n, { io_buf.sink with written := io_buf.sink.written ++ bytes }) ∧
      bytes = uint64_bytes (to_uint64 ([1, 2, 3] : List uint64_t).length)
        ++ ([1, 2, 3] : List uint64_t).flatMap pod_uint64.toBytes ∧
      write_model_field_set (pod_field pod_uint64) io_buf.sink (set_of_inserts [3, 1, 2, 3])
          "s" false
        = (.ok n, { io_buf.sink with written := io_buf.sink.written ++ bytes }) ∧
      read_model_field_set (pod_field pod_uint64) (io_buf.source bytes) []
        = (.ok ([1, 2, 3], n), io_buf.source []) :=
  ⟨by decide, by decide, by simp, by decide, rfl,
    set_round_trip (pod_field pod_uint64) (fun _ => True) pod_uint64.toBytes
      (pod_codec_plain pod_uint64) [1, 2, 3] (by decide) (by decide) (fun _ _ => trivial)
      [3, 1, 2, 3] (by simp) "s" (by decide) io_buf.sink rfl⟩

/-! ### Priority queues -/

theorem pq_top_mem {T : Type} [LinearOrder T] (x : T) (xs : List T) :
    pq_top x xs ∈ x :: xs := by
  induction xs generalizing x with
  | nil => simp [pq_top]
  | cons y ys ih =>
    have h := ih (max x y)
    simp only [pq_top, List.foldl_cons] at h ⊢
    rcases List.mem_cons.mp h with h1 | h1
    · rw [h1]
      rcases max_choice x y with hm | hm <;> simp [hm]
    · simp [h1]

theorem le_pq_top {T : Type} [LinearOrder T] (x : T) (xs : List T) :
    ∀ y ∈ x :: xs, y ≤ pq_top x xs := by
  induction xs generalizing x with
  | nil => simp [pq_top]
  | cons z zs ih =>
    intro y hy
    have h := ih (max x z)
    simp only [pq_top, List.foldl_cons] at h ⊢
    rcases List.mem_cons.mp hy with rfl | hy
    · exact le_trans (le_max_left _ _) (h _ (List.mem_cons_self _ _))
    · rcases List.mem_cons.mp hy with rfl | hy
      · exact le_trans (le_max_right _ _) (h _ (List.mem_cons_self _ _))
      · exact h _ (List.mem_cons_of_mem _ hy)

theorem pq_top_of_ge {T : Type} [LinearOrder T] (x : T) (xs : List T)
    (h : ∀ y ∈ xs, y ≤ x) : pq_top x xs = x :=
  le_antisymm
    (by
      rcases List.mem_cons.mp (pq_top_mem x xs) with h1 | h1
      · exact le_of_eq h1
      · exact h _ h1)
    (le_pq_top x xs x (List.mem_cons_self _ _))

theorem pq_pop_perm {T : Type} [LinearOrder T] (x : T) (xs : List T) :
    (x :: xs).Perm (pq_top x xs :: pq_pop (x :: xs)) :=
  List.perm_cons_erase (pq_top_mem x xs)

theorem pq_pop_order_subset {T : Type} [LinearOrder T] (fuel : Nat) (q : List T) :
    ∀ b ∈ pq_pop_order fuel q, b ∈ q := by
  induction fuel generalizing q with
  | zero => simp [pq_pop_order]
  | succ fuel ih =>
    cases q with
    | nil => simp [pq_pop_order]
    | cons x xs =>
      intro b hb
      simp only [pq_pop_order] at hb
      rcases List.mem_cons.mp hb with rfl | hb
      · exact pq_top_mem x xs
      · exact (pq_pop_perm x xs).symm.subset (List.mem_cons_of_mem _ (ih _ b hb))

theorem pq_pop_order_perm {T : Type} [LinearOrder T] (fuel : Nat) (q : List T)
    (h : q.length ≤ fuel) : (pq_pop_order fuel q).Perm q := by
  induction fuel generalizing q with
  | zero =>
    have hq : q = [] := List.length_eq_zero.mp (Nat.le_zero.mp h)
    subst hq
    simp [pq_pop_order]
  | succ fuel ih =>
    cases q with
    | nil => simp [pq_pop_order]
    | cons x xs =>
      have hp := pq_pop_perm x xs
      have hlen : (pq_pop (x :: xs)).length ≤ fuel := by
        have := hp.length_eq
        simp only [List.length_cons] at this h
        omega
      simp only [pq_pop_order]
      exact ((ih _ hlen).cons _).trans hp.symm

theorem pq_pop_order_sorted {T : Type} [LinearOrder T] (fuel : Nat) (q : List T) :
    (pq_pop_order fuel q).Sorted (· ≥ ·) := by
  induction fuel generalizing q with
  | zero => simp [pq_pop_order]
  | succ fuel ih =>
    cases q with
    | nil => simp [pq_pop_order]
    | cons x xs =>
      simp only [pq_pop_order]
      refine List.sorted_cons.mpr ⟨?_, ih _⟩
      intro b hb
      have hb1 := pq_pop_order_subset _ _ b hb
      exact le_pq_top x xs b ((pq_pop_perm x xs).symm.subset (List.mem_cons_of_mem _ hb1))

theorem pq_pop_order_of_sorted {T : Type} [LinearOrder T] (d : List T)
    (hd : d.Sorted (· ≥ ·)) (fuel : Nat) (h : d.length ≤ fuel) : pq_pop_order fuel d = d := by
  induction d generalizing fuel with
  | nil => cases fuel <;> simp [pq_pop_order]
  | cons x xs ih =>
    cases fuel with
    | zero => simp at h
    | succ fuel =>
      have hx := List.sorted_cons.mp hd
      have htop : pq_top x xs = x := pq_top_of_ge x xs hx.1
      have hpop : pq_pop (x :: xs) = xs := by
        simp [pq_pop, htop]
      simp only [pq_pop_order, htop, hpop]
      rw [ih hx.2 fuel (by simpa using h)]

theorem write_priority_queue_loop_eq {T : Type} [LinearOrder T] (E : ModelField T)
    (name : String) (text : Bool) (fuel : Nat) (q : List T) (i : Nat) (io : io_buf) (b : Nat) :
    write_priority_queue_loop E name text fuel q i io b
      = write_elements_loop E name text (pq_pop_order fuel q) i io b := by
  induction fuel generalizing q i io b with
  | zero => simp [write_priority_queue_loop, pq_pop_order, write_elements_loop]
  | succ fuel ih =>
    cases q with
    | nil => simp [write_priority_queue_loop, pq_pop_order, write_elements_loop]
    | cons x xs =>
      simp only [write_priority_queue_loop, pq_pop_order, write_elements_loop, ih]

theorem pop_sequence_length {T : Type} [LinearOrder T] (q : List T) :
    (pop_sequence q).length = q.length :=
  (pq_pop_order_perm q.length q (le_refl _)).length_eq

theorem write_priority_queue_binary {T : Type} [LinearOrder T] {E : ModelField T}
    {ok : T → Prop} {enc : T → List Byte} (hE : BinaryCodec E plain_label ok enc) (q : List T)
    (hok : ∀ v ∈ q, ok v) (io : io_buf) (name : String) (hio : io.room = none)
    (hn : has_marker name = false) :
    write_model_field_priority_queue E io q name false
      = (.ok ((vector_bytes enc (pop_sequence q)).length % WORD),
          { io with written := io.written ++ vector_bytes enc (pop_sequence q) }) := by
  have hok1 : ∀ v ∈ pop_sequence q, ok v :=
    fun v hv => hok v (pq_pop_order_subset _ _ v hv)
  have hw := write_elements_binary hE name (plain_index_label name hn) (pop_sequence q) hok1 0
    { io with written := io.written ++ uint64_bytes (to_uint64 q.length) } hio 8
    (by decide)
  have hl := pop_sequence_length q
  simp only [pop_sequence] at hw hl
  simp only [write_model_field_priority_queue, hn, write_count_binary io hio,
    write_priority_queue_loop_eq, hw, vector_bytes, List.length_append,
    uint64_bytes_length, List.append_assoc, pop_sequence, hl]
  simp

theorem read_priority_queue_binary {T : Type} {E : ModelField T} {ok : T → Prop}
    {enc : T → List Byte} (hE : BinaryCodec E plain_label ok enc) (d : List T)
    (hlen : d.length < WORD) (hok : ∀ v ∈ d, ok v) (src : io_buf) (rest : List Byte)
    (h : src.unread = vector_bytes enc d ++ rest) :
    read_model_field_priority_queue E src []
      = (.ok (d, (vector_bytes enc d).length % WORD), { src with unread := rest }) := by
  have hc := read_count_bytes src (to_uint64 d.length) (d.flatMap enc ++ rest)
    (by simpa [vector_bytes, List.append_assoc] using h)
  have hr := read_elements_binary hE pq_push d hok
    { src with unread := d.flatMap enc ++ rest } rest [] 8 (by decide) rfl
  have hf : d.foldl (fun c v => pq_push v c) [] = d := by
    simpa [pq_push] using foldl_push_back d []
  simp only [read_model_field_priority_queue, hc, to_uint64_val hlen, hr, hf, vector_bytes,
    List.length_append, uint64_bytes_length]

/-- C3: writing a priority queue `Q` in binary mode and reading the bytes into an
empty priority queue succeeds and gives a queue `Q'` that holds the same elements
with the same multiplicities as `Q` and delivers them by `top`/`pop` in the same
order as `Q`, each element not smaller than the next. -/
theorem priority_queue_round_trip {T : Type} [LinearOrder T] (E : ModelField T)
    (ok : T → Prop) (enc : T → List Byte) (hE : BinaryCodec E plain_label ok enc) (Q : List T)
    (hlen : Q.length < WORD) (hQ : ∀ v ∈ Q, ok v) (name : String)
    (hname : has_marker name = false) (io : io_buf) (hio : io.room = none) :
    ∃ (bytes : List Byte) (n : Nat) (Q' : List T),
      write_model_field_priority_queue E io Q name false
        = (.ok n, { io with written := io.written ++ bytes }) ∧
      read_model_field_priority_queue E (io_buf.source bytes) []
        = (.ok (Q', n), io_buf.source []) ∧
      Q'.Perm Q ∧ pop_sequence Q' = pop_sequence Q ∧ (pop_sequence Q).Sorted (· ≥ ·) := by
  have hperm : (pop_sequence Q).Perm Q := pq_pop_order_perm Q.length Q (le_refl _)
  have hsorted : (pop_sequence Q).Sorted (· ≥ ·) := pq_pop_order_sorted Q.length Q
  have hw := write_priority_queue_binary hE Q hQ io name hio hname
  have hr := read_priority_queue_binary hE (pop_sequence Q)
    (by rw [pop_sequence_length]; exact hlen)
    (fun v hv => hQ v (hperm.subset hv))
    (io_buf.source (vector_bytes enc (pop_sequence Q))) [] (List.append_nil _).symm
  exact ⟨_, _, pop_sequence Q, hw, hr, hperm,
    pq_pop_order_of_sorted (pop_sequence Q) hsorted _ (le_refl _), hsorted⟩

/-- Witness of C3: the queue holding 5, 1, 9 is read back as a queue that `top`/`pop`
deliver as 9, 5, 1. -/
theorem priority_queue_round_trip_witness :
    (([5, 1, 9] : List uint64_t).length < WORD ∧ has_marker "q" = false ∧
      io_buf.sink.room = none) ∧
    (∃ (bytes : List Byte) (n : Nat) (Q' : List uint64_t),
      write_model_field_priority_queue (pod_field pod_uint64) io_buf.sink [5, 1, 9] "q" false
        = (.ok n, { io_buf.sink with written := io_buf.sink.written ++ bytes }) ∧
      read_model_field_priority_queue (pod_field pod_uint64) (io_buf.source bytes) []
        = (.ok (Q', n), io_buf.source []) ∧
      Q'.Perm [5, 1, 9] ∧ pop_sequence Q' = pop_sequence [5, 1, 9] ∧
      (pop_sequence ([5, 1, 9] : List uint64_t)).Sorted (· ≥ ·)) ∧
    pop_sequence ([5, 1, 9] : List uint64_t) = [9, 5, 1] :=
  ⟨⟨by decide, by decide, rfl⟩,
    priority_queue_round_trip (pod_field pod_uint64) (fun _ => True) pod_uint64.toBytes
      (pod_codec_plain pod_uint64) [5, 1, 9] (by decide) (fun _ _ => trivial) "q" (by decide)
      io_buf.sink rfl,
    by decide⟩

/-! ### Pairs and maps -/

theorem read_pair_binary {K V : Type} {EK : ModelField K} {EV : ModelField V}
    {labK labV : String → Prop} {okK : K → Prop} {okV : V → Prop} {encK : K → List Byte}
    {encV : V → List Byte} (hK : BinaryCodec EK labK okK encK)
    (hV : BinaryCodec EV labV okV encV) (e : K × V) (he : okK e.1 ∧ okV e.2) (src : io_buf)
    (rest : List Byte) (h : src.unread = entry_bytes encK encV e ++ rest) :
    read_model_field_pair EK EV src (EK.fresh, EV.fresh)
      = (.ok (e, (entry_bytes encK encV e).length % WORD), { src with unread := rest }) := by
  have h1 := hK.read_eq e.1 he.1 src (encV e.2 ++ rest)
    (by simpa [entry_bytes, List.append_assoc] using h)
  have h2 := hV.read_eq e.2 he.2 { src with unread := encV e.2 ++ rest } rest rfl
  simp only [read_model_field_pair, h1, h2, entry_bytes, List.length_append, add_bytes, WORD]
  congr 3
  omega

theorem write_pair_binary {K V : Type} {EK : ModelField K} {EV : ModelField V}
    {labK labV : String → Prop} {okK : K → Prop} {okV : V → Prop} {encK : K → List Byte}
    {encV : V → List Byte} (hK : BinaryCodec EK labK okK encK)
    (hV : BinaryCodec EV labV okV encV) (e : K × V) (he : okK e.1 ∧ okV e.2) (io : io_buf)
    (name : String) (hio : io.room = none) (hn : has_marker name = false)
    (hlK : labK (name ++ ".first")) (hlV : labV (name ++ ".second")) :
    write_model_field_pair EK EV io e name false
      = (.ok ((entry_bytes encK encV e).length % WORD),
          { io with written := io.written ++ entry_bytes encK encV e }) := by
  have h1 := hK.write_eq e.1 he.1 io _ hio hlK
  have h2 := hV.write_eq e.2 he.2 { io with written := io.written ++ encK e.1 } _ hio hlV
  simp only [write_model_field_pair, hn, h1, h2, entry_bytes, List.length_append, add_bytes,
    WORD, List.append_assoc]
  simp only [Bool.false_eq_true, if_false]
  congr 2
  omega

/-- The pair overloads are a binary codec when the overloads of both components
are. -/
theorem pair_codec {K V : Type} {EK : ModelField K} {EV : ModelField V}
    {labK labV : String → Prop} {okK : K → Prop} {okV : V → Prop} {encK : K → List Byte}
    {encV : V → List Byte} (hK : BinaryCodec EK labK okK encK)
    (hV : BinaryCodec EV labV okV encV) :
    BinaryCodec (pair_field EK EV)
      (fun name => plain_label name ∧ labK (name ++ ".first") ∧ labV (name ++ ".second"))
      (fun e => okK e.1 ∧ okV e.2) (entry_bytes encK encV) where
  write_eq := fun e he io name hio hn => by
    simpa only [pair_field] using write_pair_binary hK hV e he io name hio hn.1 hn.2.1 hn.2.2
  read_eq := fun e he src rest h => by
    simpa only [pair_field] using read_pair_binary hK hV e he src rest h

theorem map_assign_last {K V : Type} [LinearOrder K] (k : K) (v : V) (m : List (K × V))
    (h : ∀ e ∈ m, e.1 < k) : map_assign k v m = m ++ [(k, v)] := by
  induction m with
  | nil => rfl
  | cons e m ih =>
    have he : e.1 < k := h e (List.mem_cons_self _ _)
    simp only [map_assign, not_lt.mpr (le_of_lt he), if_false, he, if_true, List.cons_append]
    rw [ih (fun x hx => h x (List.mem_cons_of_mem _ hx))]

theorem foldl_map_assign_sorted {K V : Type} [LinearOrder K] (es acc : List (K × V))
    (h : (acc ++ es).Pairwise (fun a b => a.1 < b.1)) :
    es.foldl (fun m e => map_assign e.1 e.2 m) acc = acc ++ es := by
  induction es generalizing acc with
  | nil => simp
  | cons e es ih =>
    have h1 : ∀ x ∈ acc, x.1 < e.1 := by
      intro x hx
      exact (List.pairwise_append.mp h).2.2 x hx e (List.mem_cons_self _ _)
    simp only [List.foldl_cons, map_assign_last e.1 e.2 acc h1]
    rw [ih (acc ++ [e]) (by simpa using h)]
    simp

theorem write_map_loop_binary {K V : Type} {EK : ModelField K} {EV : ModelField V}
    {labV : String → Prop} {okK : K → Prop} {okV : V → Prop} {encK : K → List Byte}
    {encV : V → List Byte} (hK : BinaryCodec EK plain_label okK encK)
    (hV : BinaryCodec EV labV okV encV) (fmtK : K → String) (name : String)
    (hn : has_marker name = false) (M : List (K × V))
    (hM : ∀ e ∈ M, okK e.1 ∧ okV e.2 ∧ labV (index_label name (fmtK e.1))) (i : Nat)
    (io : io_buf) (hio : io.room = none) (b : Nat) (hb : b < WORD) :
    write_map_loop EK EV fmtK name false M i io b
      = (.ok ((b + (M.flatMap (entry_bytes encK encV)).length) % WORD),
          { io with written := io.written ++ M.flatMap (entry_bytes encK encV) }) := by
  induction M generalizing i io b with
  | nil => simp [write_map_loop, Nat.mod_eq_of_lt hb]
  | cons e M ih =>
    have he := hM e (List.mem_cons_self _ _)
    have h1 := hK.write_eq e.1 he.1 io _ hio (plain_key_label name hn i)
    have h2 := hV.write_eq e.2 he.2.1 { io with written := io.written ++ encK e.1 } _ hio
      he.2.2
    simp only [write_map_loop, h1, h2]
    rw [ih (fun w hw => hM w (List.mem_cons_of_mem _ hw)) (i + 1)
      { io with written := io.written ++ encK e.1 ++ encV e.2 } hio _ (add_bytes_lt _ _)]
    simp only [List.flatMap_cons, entry_bytes, List.length_append, List.append_assoc,
      add_bytes, WORD]
    congr 2
    omega

theorem write_map_binary {K V : Type} {EK : ModelField K} {EV : ModelField V}
    {labV : String → Prop} {okK : K → Prop} {okV : V → Prop} {encK : K → List Byte}
    {encV : V → List Byte} (hK : BinaryCodec EK plain_label okK encK)
    (hV : BinaryCodec EV labV okV encV) (fmtK : K → String) (name : String)
    (hn : has_marker name = false) (M : List (K × V))
    (hM : ∀ e ∈ M, okK e.1 ∧ okV e.2 ∧ labV (index_label name (fmtK e.1))) (io : io_buf)
    (hio : io.room = none) :
    write_model_field_map EK EV fmtK io M name false
      = (.ok ((vector_bytes (entry_bytes encK encV) M).length % WORD),
          { io with written := io.written ++ vector_bytes (entry_bytes encK encV) M }) := by
  have hw := write_map_loop_binary hK hV fmtK name hn M hM 0
    { io with written := io.written ++ uint64_bytes (to_uint64 M.length) } hio 8
    (by decide)
  simp only [write_model_field_map, hn, write_count_binary io hio, hw, vector_bytes,
    List.length_append, uint64_bytes_length, List.append_assoc]
  simp

theorem read_map_binary {K V : Type} [LinearOrder K] {EK : ModelField K} {EV : ModelField V}
    {labK labV : String → Prop} {okK : K → Prop} {okV : V → Prop} {encK : K → List Byte}
    {encV : V → List Byte} (hK : BinaryCodec EK labK okK encK)
    (hV : BinaryCodec EV labV okV encV) (M : List (K × V)) (hlen : M.length < WORD)
    (hsorted : M.Pairwise (fun a b => a.1 < b.1)) (hM : ∀ e ∈ M, okK e.1 ∧ okV e.2)
    (src : io_buf) (rest : List Byte)
    (h : src.unread = vector_bytes (entry_bytes encK encV) M ++ rest) :
    read_model_field_map EK EV src []
      = (.ok (M, (vector_bytes (entry_bytes encK encV) M).length % WORD),
          { src with unread := rest }) := by
  have hc := read_count_bytes src (to_uint64 M.length)
    (M.flatMap (entry_bytes encK encV) ++ rest)
    (by simpa [vector_bytes, List.append_assoc] using h)
  have hr := read_elements_binary (pair_codec hK hV)
    (fun (pair : K × V) map => map_assign pair.1 pair.2 map) M hM
    { src with unread := M.flatMap (entry_bytes encK encV) ++ rest } rest [] 8 (by decide) rfl
  have hf := foldl_map_assign_sorted M [] (by simpa using hsorted)
  simp only [List.nil_append] at hf
  simp only [read_model_field_map, hc, to_uint64_val hlen, hr, hf, vector_bytes,
    List.length_append, uint64_bytes_length]

/-- C2: for a map `M` (entries in ascending key order, one for each key) whose key
and value overloads are binary codecs, the value overloads accepting the labels the
map writer builds for them (a POD value accepts every label), and a label without
the marker, the binary write succeeds, and reading the bytes it produced into an
empty map succeeds and yields `M`: the same keys with the same values. -/
theorem map_round_trip {K V : Type} [LinearOrder K] (EK : ModelField K) (EV : ModelField V)
    (fmtK : K → String) (labV : String → Prop) (okK : K → Prop) (okV : V → Prop)
    (encK : K → List Byte) (encV : V → List Byte) (hK : BinaryCodec EK plain_label okK encK)
    (hV : BinaryCodec EV labV okV encV) (M : List (K × V))
    (hsorted : M.Pairwise (fun a b => a.1 < b.1)) (hlen : M.length < WORD)
    (hM : ∀ e ∈ M, okK e.1 ∧ okV e.2) (name : String) (hname : has_marker name = false)
    (hlab : ∀ e ∈ M, labV (index_label name (fmtK e.1))) (io : io_buf)
    (hio : io.room = none) :
    ∃ (bytes : List Byte) (n : Nat),
      write_model_field_map EK EV fmtK io M name false
        = (.ok n, { io with written := io.written ++ bytes }) ∧
      read_model_field_map EK EV (io_buf.source bytes) [] = (.ok (M, n), io_buf.source []) := by
  have hw := write_map_binary hK hV fmtK name hname M
    (fun e he => ⟨(hM e he).1, (hM e he).2, hlab e he⟩) io hio
  have hr := read_map_binary hK hV M hlen hsorted hM
    (io_buf.source (vector_bytes (entry_bytes encK encV) M)) [] (List.append_nil _).symm
  exact ⟨_, _, hw, hr⟩

/-- Witness of C2: the map `{1 ↦ 10, 2 ↦ 20}` of `uint64_t` keys and values. -/
theorem map_round_trip_witness :
    (([(1, 10), (2, 20)] : List (uint64_t × uint64_t)).Pairwise (fun a b => a.1 < b.1) ∧
      ([(1, 10), (2, 20)] : List (uint64_t × uint64_t)).length < WORD ∧
      has_marker "m" = false ∧ io_buf.sink.room = none) ∧
    ∃ (bytes : List Byte) (n : Nat),
      write_model_field_map (pod_field pod_uint64) (pod_field pod_uint64) pod_uint64.fmt
          io_buf.sink [(1, 10), (2, 20)] "m" false
        = (.ok n, { io_buf.sink with written := io_buf.sink.written ++ bytes }) ∧
      read_model_field_map (pod_field pod_uint64) (pod_field pod_uint64)
          (io_buf.source bytes) []
        = (.ok ([(1, 10), (2, 20)], n), io_buf.source []) :=
  ⟨⟨by decide, by decide, by decide, rfl⟩,
    map_round_trip (pod_field pod_uint64) (pod_field pod_uint64) pod_uint64.fmt any_label
      (fun _ => True) (fun _ => True) pod_uint64.toBytes pod_uint64.toBytes
      (pod_codec_plain pod_uint64) (pod_codec pod_uint64) [(1, 10), (2, 20)] (by decide)
      (by decide) (fun _ _ => ⟨trivial, trivial⟩) "m" (by decide) (fun _ _ => trivial)
      io_buf.sink rfl⟩

/-! ### Truncated streams -/

theorem read_pod_enough {T : Type} (P : Pod T) (src : io_buf) (var : T)
    (h : P.size ≤ src.unread.length) :
    ∃ v, read_model_field_pod P src var
      = (.ok (v, P.size), { src with unread := src.unread.drop P.size }) := by
  have hl : (src.unread.take P.size).length = P.size := by
    rw [List.length_take]
    omega
  refine ⟨P.ofBytes (src.unread.take P.size ++ (P.toBytes var).drop P.size), ?_⟩
  simp only [read_model_field_pod, io_buf.bin_read_fixed, hl, check_length_matches_self]

theorem read_elements_short {T C : Type} (P : Pod T) (add : T → C → C) (n : Nat)
    (src : io_buf) (c : C) (b : Nat) (h : src.unread.length < n * P.size) :
    (read_elements_loop (pod_field P) add n src c b).1 = .error truncated := by
  induction n generalizing src c b with
  | zero => simp at h
  | succ n ih =>
    rcases Nat.lt_or_ge src.unread.length P.size with hs | hs
    · have hr := read_pod_short P src P.uninit hs
      simp only [read_elements_loop, pod_field]
      split
      · next e io1 heq =>
        rw [heq] at hr
        simpa using hr
      · next v k io1 heq =>
        rw [heq] at hr
        simp at hr
    · obtain ⟨v, hv⟩ := read_pod_enough P src P.uninit hs
      simp only [read_elements_loop, pod_field, hv]
      apply ih
      simp only [List.length_drop]
      have : (n + 1) * P.size = n * P.size + P.size := by ring
      omega

theorem flatMap_toBytes_length {T : Type} (P : Pod T) (S : List T) :
    (S.flatMap P.toBytes).length = S.length * P.size := by
  induction S with
  | nil => simp
  | cons v vs ih =>
    simp only [List.flatMap_cons, List.length_append, P.toBytes_length, ih, List.length_cons]
    ring

theorem read_count_short (src : io_buf) (h : src.unread.length < 8) :
    (read_count src).1 = .error truncated := by
  have hr := read_pod_short pod_uint64 src pod_uint64.uninit h
  simp only [read_count]
  split
  · next e io1 heq =>
    rw [heq] at hr
    simpa using hr
  · next v k io1 heq =>
    rw [heq] at hr
    simp at hr

/-- C8: when the source holds only a proper initial part `p` of the binary encoding
of a vector `S` of scalars (the empty stream included), `read_model_field` for
vectors throws the truncated-I/O error, whatever the target held: the exception of
the inner scalar read ends the whole read. -/
theorem truncated_vector_read_fails {T : Type} (P : Pod T) (S : List T)
    (hlen : S.length < WORD) (p q : List Byte) (hpq : vector_bytes P.toBytes S = p ++ q)
    (hq : q ≠ []) (src : io_buf) (hsrc : src.unread = p) (target : List T) :
    (read_model_field_vector (pod_field P) src target).1 = .error truncated := by
  have hqlen : 0 < q.length := List.length_pos.mpr hq
  have htotal : p.length + q.length = 8 + S.length * P.size := by
    have h1 := congrArg List.length hpq
    rw [vector_bytes, List.length_append, List.length_append, uint64_bytes_length,
      flatMap_toBytes_length] at h1
    exact h1.symm
  rcases Nat.lt_or_ge p.length 8 with hp | hp
  · have hc := read_count_short src (by rw [hsrc]; exact hp)
    simp only [read_model_field_vector]
    split
    · next e io1 heq =>
      rw [heq] at hc
      simpa using hc
    · next n k io1 heq =>
      rw [heq] at hc
      simp at hc
  · have htake : p.take 8 = uint64_bytes (to_uint64 S.length) := by
      have h1 : (p ++ q).take 8 = p.take 8 := List.take_append_of_le_length hp
      rw [← h1, ← hpq, vector_bytes, ← uint64_bytes_length (to_uint64 S.length),
        List.take_left]
    have hc := read_count_bytes src (to_uint64 S.length) (p.drop 8)
      (by rw [hsrc, ← htake, List.take_append_drop])
    simp only [read_model_field_vector, hc, to_uint64_val hlen]
    apply read_elements_short
    simp only [List.length_drop]
    omega

/-- Witness of C8: the encoding of `[3, 1, 2]` cut after 17 of its 32 bytes. -/
theorem truncated_vector_read_fails_witness :
    (([3, 1, 2] : List uint64_t).length < WORD ∧
      vector_bytes pod_uint64.toBytes [3, 1, 2]
        = [3, 0, 0, 0, 0, 0, 0, 0, 3, 0, 0, 0, 0, 0, 0, 0, 1]
          ++ [0, 0, 0, 0, 0, 0, 0, 2, 0, 0, 0, 0, 0, 0, 0] ∧
      ([0, 0, 0, 0, 0, 0, 0, 2, 0, 0, 0, 0, 0, 0, 0] : List Byte) ≠ []) ∧
    (read_model_field_vector (pod_field pod_uint64)
        (io_buf.source [3, 0, 0, 0, 0, 0, 0, 0, 3, 0, 0, 0, 0, 0, 0, 0, 1]) []).1
      = .error truncated :=
  ⟨⟨by decide, by decide, by decide⟩,
    truncated_vector_read_fails pod_uint64 [3, 1, 2] (by decide)
      [3, 0, 0, 0, 0, 0, 0, 0, 3, 0, 0, 0, 0, 0, 0, 0, 1]
      [0, 0, 0, 0, 0, 0, 0, 2, 0, 0, 0, 0, 0, 0, 0] (by decide) (by decide)
      (io_buf.source [3, 0, 0, 0, 0, 0, 0, 0, 3, 0, 0, 0, 0, 0, 0, 0, 1]) rfl []⟩

/-! ### Text mode -/

theorem str_bytes_append (a b : String) : str_bytes (a ++ b) = str_bytes a ++ str_bytes b := by
  simp only [str_bytes, String.data_append, List.map_append]

theorem str_bytes_length (s : String) : (str_bytes s).length = s.length := by
  show (s.data.map Char.toNat).length = s.data.length
  exact List.length_map _ _

theorem append_ne_empty (a b : String) (hb : b ≠ "") : a ++ b ≠ "" := by
  intro h
  have h1 := congrArg String.length h
  have h2 : b.length ≠ 0 := by
    intro h0
    apply hb
    apply String.ext
    exact List.length_eq_zero.mp h0
  rw [String.length_append] at h1
  have h3 : "".length = 0 := rfl
  omega

/-- Text-mode write of a POD value under a non-empty name without the marker. -/
theorem write_pod_text {T : Type} (P : Pod T) (io : io_buf) (hio : io.room = none) (v : T)
    (name : String) (hne : name ≠ "") (hn : has_marker name = false) :
    write_model_field_pod P io v name true
      = (.ok (text_line name (P.fmt v)).length,
          { io with written := io.written ++ str_bytes (text_line name (P.fmt v)) }) := by
  have hw := bin_write_fixed_unbounded io hio (str_bytes (text_line name (P.fmt v)))
  rw [str_bytes_length] at hw
  simp only [write_model_field_pod, details.write_text_mode_output, hne, hn, if_true, if_false]
  simp only [text_line] at hw ⊢
  simp only [Bool.false_eq_true, if_false, hw, check_length_matches_self]

theorem write_count_text (io : io_buf) (hio : io.room = none) (size : Nat) (hsize : size < WORD)
    (name : String) (hn : has_marker name = false) :
    write_count io size name true
      = (.ok ((text_line (name ++ ".size()") (toString size)).length % WORD),
          { io with written
              := io.written ++ str_bytes (text_line (name ++ ".size()") (toString size)) }) := by
  have hw := write_pod_text pod_uint64 io hio (to_uint64 size) (name ++ ".size()")
    (append_ne_empty _ _ (by decide)) (plain_size_label name hn)
  have hf : pod_uint64.fmt (to_uint64 size) = toString size := by
    simp only [pod_uint64, to_uint64_val hsize]
  rw [hf] at hw
  simp only [write_count, hw, add_bytes, Nat.zero_add]

theorem index_label_ne_empty (name key : String) : index_label name key ≠ "" :=
  append_ne_empty _ _ (by decide)

theorem write_elements_text {T : Type} (P : Pod T) (name : String)
    (hn : has_marker name = false) (vs : List T) (i : Nat)
    (hi : i + vs.length ≤ WORD) (io : io_buf) (hio : io.room = none) (b : Nat)
    (hb : b < WORD) :
    write_elements_loop (pod_field P) name true vs i io b
      = (.ok ((b + (vector_lines P.fmt name i vs).length) % WORD),
          { io with written := io.written ++ str_bytes (vector_lines P.fmt name i vs) }) := by
  induction vs generalizing i io b with
  | nil =>
    have h0 : ("" : String).length = 0 := rfl
    have h1 : str_bytes "" = [] := rfl
    simp [write_elements_loop, vector_lines, Nat.mod_eq_of_lt hb, h0, h1]
  | cons v vs ih =>
    have hiw : i < WORD := by
      simp only [List.length_cons] at hi
      omega
    have hc : fmt_counter i = toString i := by
      simp only [fmt_counter, to_uint64_val hiw]
    have hw := write_pod_text P io hio v (index_label name (fmt_counter i))
      (index_label_ne_empty _ _) (plain_index_label name hn i)
    simp only [hc, index_label] at hw
    simp only [write_elements_loop, pod_field, hc, index_label, hw]
    have hih := ih (i + 1) (by simp only [List.length_cons] at hi; omega)
      { io with written
          := io.written ++ str_bytes (text_line (name ++ "[" ++ toString i ++ "]") (P.fmt v)) }
      hio (add_bytes b (text_line (name ++ "[" ++ toString i ++ "]") (P.fmt v)).length)
      (add_bytes_lt _ _)
    simp only [pod_field] at hih
    rw [hih]
    simp only [vector_lines, String.length_append, str_bytes_append, List.append_assoc,
      add_bytes, WORD]
    congr 2
    omega

/-- Text-mode write of a vector of scalars under a label without the marker. -/
theorem write_vector_text {T : Type} (P : Pod T) (S : List T) (hlen : S.length < WORD)
    (L : String) (hL : has_marker L = false) (io : io_buf) (hio : io.room = none) :
    write_model_field_vector (pod_field P) io S L true
      = (.ok ((vector_text P.fmt L S).length % WORD),
          { io with written := io.written ++ str_bytes (vector_text P.fmt L S) }) := by
  have hc := write_count_text io hio S.length hlen L hL
  have hw := write_elements_text P L hL S 0 (by omega)
    { io with written
        := io.written ++ str_bytes (text_line (L ++ ".size()") (toString S.length)) }
    hio ((text_line (L ++ ".size()") (toString S.length)).length % WORD)
    (Nat.mod_lt _ (by decide))
  simp only [write_model_field_vector, hL, hc, to_uint64_val hlen, List.take_length, hw,
    vector_text, String.length_append, str_bytes_append, List.append_assoc, WORD]
  simp only [Bool.false_eq_true, if_false]
  congr 2
  omega

/-- C10: for a vector `S` of `n` scalars and a non-empty label `L` without the
marker, the text-mode `write_model_field` appends to the sink exactly the line
`L.size() = n` followed by the lines `L[i] = <S[i]>` for `i = 0, ..., n - 1` in this
order, and returns the length of that text (a text whose length fits a `size_t`). -/
theorem vector_text_rendering {T : Type} (P : Pod T) (S : List T) (hlen : S.length < WORD)
    (L : String) (_hne : L ≠ "") (hL : has_marker L = false) (io : io_buf)
    (hio : io.room = none) (htotal : (vector_text P.fmt L S).length < WORD) :
    write_model_field_vector (pod_field P) io S L true
      = (.ok (vector_text P.fmt L S).length,
          { io with written := io.written ++ str_bytes (vector_text P.fmt L S) }) := by
  have h := write_vector_text P S hlen L hL io hio
  rw [Nat.mod_eq_of_lt htotal] at h
  exact h

/-- Witness of C10: the vector `[3, 1, 2]` under the label `v` is rendered as
`v.size() = 3`, `v[0] = 3`, `v[1] = 1`, `v[2] = 2`, one on each line. -/
theorem vector_text_rendering_witness :
    (([3, 1, 2] : List uint64_t).length < WORD ∧ "v" ≠ "" ∧ has_marker "v" = false ∧
      io_buf.sink.room = none ∧ (vector_text pod_uint64.fmt "v" [3, 1, 2]).length < WORD) ∧
    write_model_field_vector (pod_field pod_uint64) io_buf.sink [3, 1, 2] "v" true
      = (.ok (vector_text pod_uint64.fmt "v" [3, 1, 2]).length,
          { io_buf.sink with written
              := io_buf.sink.written ++ str_bytes (vector_text pod_uint64.fmt "v" [3, 1, 2]) }) ∧
    vector_text pod_uint64.fmt "v" [3, 1, 2] = "v.size() = 3\nv[0] = 3\nv[1] = 1\nv[2] = 2\n" :=
  ⟨⟨by decide, by decide, by decide, rfl, by decide⟩,
    vector_text_rendering pod_uint64 [3, 1, 2] (by decide) "v" (by decide) (by decide)
      io_buf.sink rfl (by decide),
    by decide⟩

/-! ### Text of a map -/

theorem append_ne_empty_left (a b : String) (ha : a ≠ "") : a ++ b ≠ "" := by
  intro h
  have h1 := congrArg String.length h
  have h2 : a.length ≠ 0 := by
    intro h0
    apply ha
    apply String.ext
    exact List.length_eq_zero.mp h0
  rw [String.length_append] at h1
  have h3 : "".length = 0 := rfl
  omega

theorem key_label_ne_empty (name : String) (i : Nat) : name ++ ".key" ++ fmt_counter i ≠ "" :=
  append_ne_empty_left _ _ (append_ne_empty _ _ (by decide))

theorem write_map_loop_text {K V : Type} (PK : Pod K) (PV : Pod V) (name : String)
    (hn : has_marker name = false) (M : List (K × V))
    (hkey : ∀ e ∈ M, has_marker (PK.fmt e.1) = false) (i : Nat) (hi : i + M.length ≤ WORD)
    (io : io_buf) (hio : io.room = none) (b : Nat) (hb : b < WORD) :
    write_map_loop (pod_field PK) (pod_field PV) PK.fmt name true M i io b
      = (.ok ((b + (map_lines PK.fmt PV.fmt name i M).length) % WORD),
          { io with written := io.written ++ str_bytes (map_lines PK.fmt PV.fmt name i M) }) := by
  induction M generalizing i io b with
  | nil =>
    have h0 : ("" : String).length = 0 := rfl
    have h1 : str_bytes "" = [] := rfl
    simp [write_map_loop, map_lines, Nat.mod_eq_of_lt hb, h0, h1]
  | cons e M ih =>
    have hiw : i < WORD := by
      simp only [List.length_cons] at hi
      omega
    have hc : fmt_counter i = toString i := by
      simp only [fmt_counter, to_uint64_val hiw]
    have hw1 := write_pod_text PK io hio e.1 (name ++ ".key" ++ fmt_counter i)
      (key_label_ne_empty _ _) (plain_key_label name hn i)
    have hw2 := write_pod_text PV
      { io with written
          := io.written ++ str_bytes (text_line (name ++ ".key" ++ fmt_counter i) (PK.fmt e.1)) }
      hio e.2 (index_label name (PK.fmt e.1)) (index_label_ne_empty _ _)
      (has_marker_index_label name _ hn (hkey e (List.mem_cons_self _ _)))
    simp only [hc, index_label] at hw1 hw2
    simp only [write_map_loop, pod_field, hc, index_label, hw1, hw2]
    have hih := ih (fun w hw => hkey w (List.mem_cons_of_mem _ hw)) (i + 1)
      (by simp only [List.length_cons] at hi; omega)
      { io with written
          := (io.written ++ str_bytes (text_line (name ++ ".key" ++ toString i) (PK.fmt e.1)) ++
              str_bytes (text_line (name ++ "[" ++ PK.fmt e.1 ++ "]") (PV.fmt e.2))) }
      hio
      (add_bytes (add_bytes b (text_line (name ++ ".key" ++ toString i) (PK.fmt e.1)).length)
        (text_line (name ++ "[" ++ PK.fmt e.1 ++ "]") (PV.fmt e.2)).length)
      (add_bytes_lt _ _)
    simp only [pod_field] at hih
    rw [hih]
    simp only [map_lines, String.length_append, str_bytes_append, List.append_assoc,
      add_bytes, WORD]
    congr 2
    omega

/-- Text-mode write of a map of scalars under a label without the marker, the text
of each key having no marker either. -/
theorem write_map_text {K V : Type} (PK : Pod K) (PV : Pod V) (M : List (K × V))
    (hlen : M.length < WORD) (L : String) (hL : has_marker L = false)
    (hkey : ∀ e ∈ M, has_marker (PK.fmt e.1) = false) (io : io_buf) (hio : io.room = none) :
    write_model_field_map (pod_field PK) (pod_field PV) PK.fmt io M L true
      = (.ok ((map_text PK.fmt PV.fmt L M).length % WORD),
          { io with written := io.written ++ str_bytes (map_text PK.fmt PV.fmt L M) }) := by
  have hc := write_count_text io hio M.length hlen L hL
  have hw := write_map_loop_text PK PV L hL M hkey 0 (by omega)
    { io with written
        := io.written ++ str_bytes (text_line (L ++ ".size()") (toString M.length)) }
    hio ((text_line (L ++ ".size()") (toString M.length)).length % WORD)
    (Nat.mod_lt _ (by decide))
  simp only [write_model_field_map, hL, hc, hw, map_text, String.length_append,
    str_bytes_append, List.append_assoc, WORD]
  simp only [Bool.false_eq_true, if_false]
  congr 2
  omega

/-- C11: for a map `M` of scalars with `n` entries (listed in ascending key order)
and a label `L` without the marker, the text-mode `write_model_field` appends to the
sink the line `L.size() = n` and then, for the `i`-th entry `(k, v)`, the line
`L.key<i> = <k>` followed by the line `L[<k>] = <v>`, and returns the length of that
text. The text of a key is taken to have no marker, as the text of every number and
character has. -/
theorem map_text_rendering {K V : Type} [LinearOrder K] (PK : Pod K) (PV : Pod V)
    (M : List (K × V)) (_hsorted : M.Pairwise (fun a b => a.1 < b.1)) (hlen : M.length < WORD)
    (L : String) (hL : has_marker L = false)
    (hkey : ∀ e ∈ M, has_marker (PK.fmt e.1) = false) (io : io_buf) (hio : io.room = none)
    (htotal : (map_text PK.fmt PV.fmt L M).length < WORD) :
    write_model_field_map (pod_field PK) (pod_field PV) PK.fmt io M L true
      = (.ok (map_text PK.fmt PV.fmt L M).length,
          { io with written := io.written ++ str_bytes (map_text PK.fmt PV.fmt L M) }) := by
  have h := write_map_text PK PV M hlen L hL hkey io hio
  rw [Nat.mod_eq_of_lt htotal] at h
  exact h

/-- The text of a character has no marker. -/
theorem pod_char_fmt_plain (c : char_t) : has_marker (pod_char.fmt c) = false := by
  simp [has_marker, pod_char, String.singleton, has_marker_chars]

/-- The text of a number has no marker. -/
theorem pod_uint64_fmt_plain (v : uint64_t) : has_marker (pod_uint64.fmt v) = false :=
  has_marker_toString v.val

/-- Witness of C11: the map `{a: 1, b: 2}` (keys of type `char`) under the label `m`
is rendered as `m.size() = 2`, `m.key0 = a`, `m[a] = 1`, `m.key1 = b`, `m[b] = 2`,
one on each line. -/
theorem map_text_rendering_witness :
    (([(97, 1), (98, 2)] : List (char_t × uint64_t)).Pairwise (fun a b => a.1 < b.1) ∧
      ([(97, 1), (98, 2)] : List (char_t × uint64_t)).length < WORD ∧
      has_marker "m" = false ∧
      (∀ e ∈ ([(97, 1), (98, 2)] : List (char_t × uint64_t)),
        has_marker (pod_char.fmt e.1) = false) ∧
      io_buf.sink.room = none ∧
      (map_text pod_char.fmt pod_uint64.fmt "m" [(97, 1), (98, 2)]).length < WORD) ∧
    write_model_field_map (pod_field pod_char) (pod_field pod_uint64) pod_char.fmt io_buf.sink
        [(97, 1), (98, 2)] "m" true
      = (.ok (map_text pod_char.fmt pod_uint64.fmt "m" [(97, 1), (98, 2)]).length,
          { io_buf.sink with written := (io_buf.sink.written ++
              str_bytes (map_text pod_char.fmt pod_uint64.fmt "m" [(97, 1), (98, 2)])) }) ∧
    map_text pod_char.fmt pod_uint64.fmt "m" [(97, 1), (98, 2)]
      = "m.size() = 2\nm.key0 = a\nm[a] = 1\nm.key1 = b\nm[b] = 2\n" :=
  ⟨⟨by decide, by decide, by decide, fun e _ => pod_char_fmt_plain e.1, rfl, by decide⟩,
    map_text_rendering pod_char pod_uint64 [(97, 1), (98, 2)] (by decide) (by decide) "m"
      (by decide) (fun e _ => pod_char_fmt_plain e.1) io_buf.sink rfl (by decide),
    by decide⟩

/-! ### Templates -/

theorem count_markers_append_ge (a l : List Char) :
    count_markers l ≤ count_markers (a ++ l) := by
  induction a with
  | nil => simp
  | cons c a ih =>
    have hstep : count_markers (c :: (a ++ l))
        = (if c == '{' && (a ++ l).head? == some '}' then 1 else 0) + count_markers (a ++ l) :=
      rfl
    rw [List.cons_append, hstep]
    omega

theorem count_markers_marker (l : List Char) :
    count_markers ('{' :: '}' :: l) = 1 + count_markers l := by
  simp [count_markers]

theorem count_markers_two (a b c : List Char) :
    2 ≤ count_markers (a ++ '{' :: '}' :: (b ++ '{' :: '}' :: c)) := by
  have h1 := count_markers_append_ge a ('{' :: '}' :: (b ++ '{' :: '}' :: c))
  have h2 := count_markers_marker (b ++ '{' :: '}' :: c)
  have h3 := count_markers_append_ge b ('{' :: '}' :: c)
  have h4 := count_markers_marker c
  omega

/-- C12: for a scalar value and a directive with more than one marker `{}` (two
occurrences, at different places), the text-mode `write_model_field` throws the
format error of the template and the sink is as it was before the call. -/
theorem ambiguous_template_rejected {T : Type} (P : Pod T) (v : T) (io : io_buf)
    (directive : String)
    (hdir : ∃ a b c : List Char, directive.data = a ++ '{' :: '}' :: (b ++ '{' :: '}' :: c)) :
    write_model_field_pod P io v directive true = (.error .format_error, io) := by
  obtain ⟨a, b, c, habc⟩ := hdir
  have hm : has_marker directive = true :=
    (has_marker_iff directive).mpr ⟨a, b ++ '{' :: '}' :: c, habc⟩
  have hne : directive ≠ "" := by
    intro h
    rw [h] at hm
    exact absurd hm (by decide)
  have hc : ¬ count_markers directive.data ≤ 1 := by
    have h2 := count_markers_two a b c
    rw [← habc] at h2
    omega
  simp [write_model_field_pod, details.write_text_mode_output, hne, hm, fmt_format, hc]

/-- Witness of C12: the directive `{} and {}`, the value 7 and a sink that already
holds a byte. -/
theorem ambiguous_template_rejected_witness :
    (∃ a b c : List Char, "{} and {}".data = a ++ '{' :: '}' :: (b ++ '{' :: '}' :: c)) ∧
    write_model_field_pod pod_uint64 ⟨[1], none, []⟩ 7 "{} and {}" true
      = (.error .format_error, ⟨[1], none, []⟩) :=
  ⟨⟨[], [' ', 'a', 'n', 'd', ' '], [], rfl⟩,
    ambiguous_template_rejected pod_uint64 7 ⟨[1], none, []⟩ "{} and {}"
      ⟨[], [' ', 'a', 'n', 'd', ' '], [], rfl⟩⟩

/-! ### Binary layout -/

/-- C13: for a vector `S` of `n` scalars of size `w` and a label without the marker,
the binary `write_model_field` appends exactly `8 + n * w` bytes, the 8 bytes of the
count `n` followed by the bytes of `S[0]`, ..., `S[n-1]` in this order with nothing
in between, and returns `8 + n * w` (a number that fits a `size_t`). -/
theorem vector_binary_layout {T : Type} (P : Pod T) (S : List T) (name : String)
    (hname : has_marker name = false) (io : io_buf) (hio : io.room = none)
    (htotal : 8 + S.length * P.size < WORD) :
    write_model_field_vector (pod_field P) io S name false
      = (.ok (8 + S.length * P.size),
          { io with written
              := io.written ++ (uint64_bytes (to_uint64 S.length) ++ S.flatMap P.toBytes) }) ∧
    (uint64_bytes (to_uint64 S.length) ++ S.flatMap P.toBytes).length = 8 + S.length * P.size ∧
    (uint64_bytes (to_uint64 S.length)).length = 8 ∧
    (uint64_of_bytes (uint64_bytes (to_uint64 S.length))).val = S.length := by
  have hlen : S.length < WORD := by
    have hpos := P.size_pos
    have hle : S.length * 1 ≤ S.length * P.size := Nat.mul_le_mul_left _ hpos
    omega
  have hl : (vector_bytes P.toBytes S).length = 8 + S.length * P.size := by
    rw [vector_bytes, List.length_append, uint64_bytes_length, flatMap_toBytes_length]
  have hw := write_vector_binary (pod_codec_plain P) S hlen (fun _ _ => trivial) io name hio
    hname
  rw [hl, Nat.mod_eq_of_lt htotal] at hw
  refine ⟨hw, hl, uint64_bytes_length _, ?_⟩
  have hrt : uint64_of_bytes (uint64_bytes (to_uint64 S.length)) = to_uint64 S.length :=
    pod_uint64.ofBytes_toBytes (to_uint64 S.length)
  rw [hrt]
  exact to_uint64_val hlen

/-- Witness of C13: the `unsigned` sequence `[3, 1, 2]` is written as the count 3
on 8 bytes followed by 3, 1 and 2 on 4 bytes each. -/
theorem vector_binary_layout_witness :
    (has_marker "v" = false ∧ io_buf.sink.room = none ∧
      8 + ([3, 1, 2] : List uint32_t).length * pod_uint32.size < WORD) ∧
    (write_model_field_vector (pod_field pod_uint32) io_buf.sink [3, 1, 2] "v" false
      = (.ok (8 + ([3, 1, 2] : List uint32_t).length * pod_uint32.size),
          { io_buf.sink with written
              := io_buf.sink.written ++ (uint64_bytes (to_uint64 ([3, 1, 2] : List uint32_t).length)
                  ++ ([3, 1, 2] : List uint32_t).flatMap pod_uint32.toBytes) }) ∧
    (uint64_bytes (to_uint64 ([3, 1, 2] : List uint32_t).length)
        ++ ([3, 1, 2] : List uint32_t).flatMap pod_uint32.toBytes).length
      = 8 + ([3, 1, 2] : List uint32_t).length * pod_uint32.size ∧
    (uint64_bytes (to_uint64 ([3, 1, 2] : List uint32_t).length)).length = 8 ∧
    (uint64_of_bytes (uint64_bytes (to_uint64 ([3, 1, 2] : List uint32_t).length))).val
      = ([3, 1, 2] : List uint32_t).length) ∧
    write_model_field_vector (pod_field pod_uint32) io_buf.sink [3, 1, 2] "v" false
      = (.ok 20, ⟨[3, 0, 0, 0, 0, 0, 0, 0, 3, 0, 0, 0, 1, 0, 0, 0, 2, 0, 0, 0], none, []⟩) :=
  ⟨⟨by decide, rfl, by decide⟩,
    vector_binary_layout pod_uint32 [3, 1, 2] "v" (by decide) io_buf.sink rfl (by decide),
    by decide⟩

/-- C14: a vector field is self-delimiting. Reading a vector from a source that
holds the bytes written for `S1` followed by any bytes `R` gives `S1`, returns the
byte count the write returned and leaves exactly `R` unread; so when a second
vector `S2` is written after `S1`, two reads in the same order give `S1` and then
`S2`, and leave what follows. -/
theorem vector_self_delimiting {T1 T2 : Type} (E1 : ModelField T1) (E2 : ModelField T2)
    (ok1 : T1 → Prop) (ok2 : T2 → Prop) (enc1 : T1 → List Byte) (enc2 : T2 → List Byte)
    (hE1 : BinaryCodec E1 plain_label ok1 enc1) (hE2 : BinaryCodec E2 plain_label ok2 enc2)
    (S1 : List T1) (S2 : List T2) (hlen1 : S1.length < WORD) (hlen2 : S2.length < WORD)
    (hS1 : ∀ v ∈ S1, ok1 v) (hS2 : ∀ v ∈ S2, ok2 v) (name1 name2 : String)
    (hname1 : has_marker name1 = false) (hname2 : has_marker name2 = false) (io : io_buf)
    (hio : io.room = none) (R : List Byte) :
    ∃ (b1 b2 : List Byte) (n1 n2 : Nat),
      write_model_field_vector E1 io S1 name1 false
        = (.ok n1, { io with written := io.written ++ b1 }) ∧
      write_model_field_vector E2 { io with written := io.written ++ b1 } S2 name2 false
        = (.ok n2, { io with written := io.written ++ b1 ++ b2 }) ∧
      (∀ src : io_buf, src.unread = b1 ++ R →
        read_model_field_vector E1 src [] = (.ok (S1, n1), { src with unread := R })) ∧
      (∀ src : io_buf, src.unread = b1 ++ b2 ++ R →
        read_model_field_vector E1 src [] = (.ok (S1, n1), { src with unread := b2 ++ R }) ∧
        read_model_field_vector E2 { src with unread := b2 ++ R } []
          = (.ok (S2, n2), { src with unread := R })) := by
  refine ⟨vector_bytes enc1 S1, vector_bytes enc2 S2, (vector_bytes enc1 S1).length % WORD,
    (vector_bytes enc2 S2).length % WORD, ?_, ?_, ?_, ?_⟩
  · exact write_vector_binary hE1 S1 hlen1 hS1 io name1 hio hname1
  · exact write_vector_binary hE2 S2 hlen2 hS2
      { io with written := io.written ++ vector_bytes enc1 S1 } name2 hio hname2
  · intro src hsrc
    exact read_vector_binary hE1 S1 hlen1 hS1 src R hsrc
  · intro src hsrc
    refine ⟨read_vector_binary hE1 S1 hlen1 hS1 src (vector_bytes enc2 S2 ++ R)
      (by rw [hsrc, List.append_assoc]), ?_⟩
    exact read_vector_binary hE2 S2 hlen2 hS2
      { src with unread := vector_bytes enc2 S2 ++ R } R rfl

/-- Witness of C14: the `unsigned` vector `[3, 1, 2]` followed by the `uint64_t`
vector `[7]`, and one more byte after them. -/
theorem vector_self_delimiting_witness :
    (([3, 1, 2] : List uint32_t).length < WORD ∧ ([7] : List uint64_t).length < WORD ∧
      has_marker "a" = false ∧ has_marker "b" = false ∧ io_buf.sink.room = none) ∧
    ∃ (b1 b2 : List Byte) (n1 n2 : Nat),
      write_model_field_vector (pod_field pod_uint32) io_buf.sink [3, 1, 2] "a" false
        = (.ok n1, { io_buf.sink with written := io_buf.sink.written ++ b1 }) ∧
      write_model_field_vector (pod_field pod_uint64)
          { io_buf.sink with written := io_buf.sink.written ++ b1 } [7] "b" false
        = (.ok n2, { io_buf.sink with written := io_buf.sink.written ++ b1 ++ b2 }) ∧
      (∀ src : io_buf, src.unread = b1 ++ [9] →
        read_model_field_vector (pod_field pod_uint32) src []
          = (.ok ([3, 1, 2], n1), { src with unread := [9] })) ∧
      (∀ src : io_buf, src.unread = b1 ++ b2 ++ [9] →
        read_model_field_vector (pod_field pod_uint32) src []
          = (.ok ([3, 1, 2], n1), { src with unread := b2 ++ [9] }) ∧
        read_model_field_vector (pod_field pod_uint64) { src with unread := b2 ++ [9] } []
          = (.ok ([7], n2), { src with unread := [9] })) :=
  ⟨⟨by decide, by decide, by decide, by decide, rfl⟩,
    vector_self_delimiting (pod_field pod_uint32) (pod_field pod_uint64) (fun _ => True)
      (fun _ => True) pod_uint32.toBytes pod_uint64.toBytes (pod_codec_plain pod_uint32)
      (pod_codec_plain pod_uint64) [3, 1, 2] [7] (by decide) (by decide) (fun _ _ => trivial)
      (fun _ _ => trivial) "a" "b" (by decide) (by decide) io_buf.sink rfl [9]⟩

/-! ### A map as a sequence of pairs -/

theorem plain_first_label (name : String) (h : plain_label name) :
    plain_label (name ++ ".first") :=
  has_marker_append_literal name ".first" h (by decide) (by decide)

theorem plain_second_label (name : String) (h : plain_label name) :
    plain_label (name ++ ".second") :=
  has_marker_append_literal name ".second" h (by decide) (by decide)

/-- The pair overloads under the labels the composite writers build. -/
theorem pair_codec_plain {K V : Type} {EK : ModelField K} {EV : ModelField V}
    {labV : String → Prop} {okK : K → Prop} {okV : V → Prop} {encK : K → List Byte}
    {encV : V → List Byte} (hK : BinaryCodec EK plain_label okK encK)
    (hV : BinaryCodec EV labV okV encV) (hplain : ∀ s, plain_label s → labV s) :
    BinaryCodec (pair_field EK EV) plain_label (fun e => okK e.1 ∧ okV e.2)
      (entry_bytes encK encV) :=
  (pair_codec hK hV).weaken
    (fun s hs => ⟨hs, plain_first_label s hs, hplain _ (plain_second_label s hs)⟩)

/-- C15: the bytes that the binary map writer appends for a map `M` are the bytes
that the binary vector writer appends for the list of the entries of `M` in
ascending key order: the count, then for each entry the bytes of the key directly
followed by the bytes of the value. The vector reader with the pair reader for its
elements and the map reader decode these bytes to the same entries. -/
theorem map_encoding_is_pair_sequence {K V : Type} [LinearOrder K] (EK : ModelField K)
    (EV : ModelField V) (fmtK : K → String) (labV : String → Prop) (okK : K → Prop)
    (okV : V → Prop) (encK : K → List Byte) (encV : V → List Byte)
    (hK : BinaryCodec EK plain_label okK encK) (hV : BinaryCodec EV labV okV encV)
    (hplain : ∀ s, plain_label s → labV s) (M : List (K × V))
    (hsorted : M.Pairwise (fun a b => a.1 < b.1)) (hlen : M.length < WORD)
    (hM : ∀ e ∈ M, okK e.1 ∧ okV e.2) (name : String) (hname : has_marker name = false)
    (hlab : ∀ e ∈ M, labV (index_label name (fmtK e.1))) (io : io_buf)
    (hio : io.room = none) :
    ∃ (bytes : List Byte) (n : Nat),
      write_model_field_map EK EV fmtK io M name false
        = (.ok n, { io with written := io.written ++ bytes }) ∧
      write_model_field_vector (pair_field EK EV) io M name false
        = (.ok n, { io with written := io.written ++ bytes }) ∧
      bytes = uint64_bytes (to_uint64 M.length) ++ M.flatMap (fun e => encK e.1 ++ encV e.2) ∧
      read_model_field_vector (pair_field EK EV) (io_buf.source bytes) []
        = (.ok (M, n), io_buf.source []) ∧
      read_model_field_map EK EV (io_buf.source bytes) [] = (.ok (M, n), io_buf.source []) := by
  have hP := pair_codec_plain hK hV hplain
  have hw1 := write_map_binary hK hV fmtK name hname M
    (fun e he => ⟨(hM e he).1, (hM e he).2, hlab e he⟩) io hio
  have hw2 := write_vector_binary hP M hlen hM io name hio hname
  have hr1 := read_vector_binary hP M hlen hM
    (io_buf.source (vector_bytes (entry_bytes encK encV) M)) [] (List.append_nil _).symm
  have hr2 := read_map_binary hK hV M hlen hsorted hM
    (io_buf.source (vector_bytes (entry_bytes encK encV) M)) [] (List.append_nil _).symm
  exact ⟨_, _, hw1, hw2, rfl, hr1, hr2⟩

/-- Witness of C15: the map `{1 ↦ 10, 2 ↦ 20}` of `uint64_t` keys and values. -/
theorem map_encoding_is_pair_sequence_witness :
    (([(1, 10), (2, 20)] : List (uint64_t × uint64_t)).Pairwise (fun a b => a.1 < b.1) ∧
      ([(1, 10), (2, 20)] : List (uint64_t × uint64_t)).length < WORD ∧
      has_marker "m" = false ∧ io_buf.sink.room = none) ∧
    ∃ (bytes : List Byte) (n : Nat),
      write_model_field_map (pod_field pod_uint64) (pod_field pod_uint64) pod_uint64.fmt
          io_buf.sink [(1, 10), (2, 20)] "m" false
        = (.ok n, { io_buf.sink with written := io_buf.sink.written ++ bytes }) ∧
      write_model_field_vector (pair_field (pod_field pod_uint64) (pod_field pod_uint64))
          io_buf.sink [(1, 10), (2, 20)] "m" false
        = (.ok n, { io_buf.sink with written := io_buf.sink.written ++ bytes }) ∧
      bytes = uint64_bytes (to_uint64 ([(1, 10), (2, 20)] : List (uint64_t × uint64_t)).length)
        ++ ([(1, 10), (2, 20)] : List (uint64_t × uint64_t)).flatMap
            (fun e => pod_uint64.toBytes e.1 ++ pod_uint64.toBytes e.2) ∧
      read_model_field_vector (pair_field (pod_field pod_uint64) (pod_field pod_uint64))
          (io_buf.source bytes) []
        = (.ok ([(1, 10), (2, 20)], n), io_buf.source []) ∧
      read_model_field_map (pod_field pod_uint64) (pod_field pod_uint64)
          (io_buf.source bytes) []
        = (.ok ([(1, 10), (2, 20)], n), io_buf.source []) :=
  ⟨⟨by decide, by decide, by decide, rfl⟩,
    map_encoding_is_pair_sequence (pod_field pod_uint64) (pod_field pod_uint64) pod_uint64.fmt
      any_label (fun _ => True) (fun _ => True) pod_uint64.toBytes pod_uint64.toBytes
      (pod_codec_plain pod_uint64) (pod_codec pod_uint64) (fun _ _ => trivial)
      [(1, 10), (2, 20)] (by decide) (by decide) (fun _ _ => ⟨trivial, trivial⟩) "m"
      (by decide) (fun _ _ => trivial) io_buf.sink rfl⟩

/-! ### Priority queue on disk -/

/-- C16: for a priority queue `Q` with `n` elements the binary writer appends the
8 bytes of the count `n` and then the elements of `Q` from the largest to the
smallest: the written sequence is a rearrangement of `Q` in which each element is
not smaller than the next. The writer empties a copy, not `Q`: a second write of
`Q` appends the same bytes again. -/
theorem priority_queue_layout {T : Type} [LinearOrder T] (E : ModelField T) (ok : T → Prop)
    (enc : T → List Byte) (hE : BinaryCodec E plain_label ok enc) (Q : List T)
    (hQ : ∀ v ∈ Q, ok v) (name : String) (hname : has_marker name = false) (io : io_buf)
    (hio : io.room = none) :
    ∃ (written : List T) (n : Nat),
      write_model_field_priority_queue E io Q name false
        = (.ok n, { io with written
            := io.written ++ (uint64_bytes (to_uint64 Q.length) ++ written.flatMap enc) }) ∧
      written.Sorted (· ≥ ·) ∧ written.Perm Q ∧
      write_model_field_priority_queue E
          { io with written
            := io.written ++ (uint64_bytes (to_uint64 Q.length) ++ written.flatMap enc) }
          Q name false
        = (.ok n, { io with written
            := io.written ++ (uint64_bytes (to_uint64 Q.length) ++ written.flatMap enc)
                ++ (uint64_bytes (to_uint64 Q.length) ++ written.flatMap enc) }) := by
  have hl := pop_sequence_length Q
  have hb : vector_bytes enc (pop_sequence Q)
      = uint64_bytes (to_uint64 Q.length) ++ (pop_sequence Q).flatMap enc := by
    rw [vector_bytes, hl]
  have hw1 := write_priority_queue_binary hE Q hQ io name hio hname
  have hw2 := write_priority_queue_binary hE Q hQ
    { io with written := io.written ++ vector_bytes enc (pop_sequence Q) } name hio hname
  rw [hb] at hw1 hw2
  exact ⟨pop_sequence Q, _, hw1, pq_pop_order_sorted Q.length Q,
    pq_pop_order_perm Q.length Q (le_refl _), hw2⟩

/-- Witness of C16: the queue holding 5, 1, 9 is written as the count 3 followed by
9, 5, 1. -/
theorem priority_queue_layout_witness :
    (has_marker "q" = false ∧ io_buf.sink.room = none) ∧
    (∃ (written : List uint64_t) (n : Nat),
      write_model_field_priority_queue (pod_field pod_uint64) io_buf.sink [5, 1, 9] "q" false
        = (.ok n, { io_buf.sink with written
            := io_buf.sink.written ++ (uint64_bytes (to_uint64 ([5, 1, 9] : List uint64_t).length)
                ++ written.flatMap pod_uint64.toBytes) }) ∧
      written.Sorted (· ≥ ·) ∧ written.Perm [5, 1, 9] ∧
      write_model_field_priority_queue (pod_field pod_uint64)
          { io_buf.sink with written
            := io_buf.sink.written ++ (uint64_bytes (to_uint64 ([5, 1, 9] : List uint64_t).length)
                ++ written.flatMap pod_uint64.toBytes) }
          [5, 1, 9] "q" false
        = (.ok n, { io_buf.sink with written
            := io_buf.sink.written ++ (uint64_bytes (to_uint64 ([5, 1, 9] : List uint64_t).length)
                ++ written.flatMap pod_uint64.toBytes)
                ++ (uint64_bytes (to_uint64 ([5, 1, 9] : List uint64_t).length)
                  ++ written.flatMap pod_uint64.toBytes) })) ∧
    write_model_field_priority_queue (pod_field pod_uint64) io_buf.sink [5, 1, 9] "q" false
      = (.ok 32,
          ⟨uint64_bytes 3 ++ uint64_bytes 9 ++ uint64_bytes 5 ++ uint64_bytes 1, none, []⟩) :=
  ⟨⟨by decide, rfl⟩,
    priority_queue_layout (pod_field pod_uint64) (fun _ => True) pod_uint64.toBytes
      (pod_codec_plain pod_uint64) [5, 1, 9] (fun _ _ => trivial) "q" (by decide)
      io_buf.sink rfl,
    by decide⟩

/-! ### Reading into a target that is not empty -/

theorem mem_foldl_set_insert {T : Type} [LinearOrder T] (d acc : List T) (x : T) :
    x ∈ d.foldl (fun s v => set_insert v s) acc ↔ x ∈ acc ∨ x ∈ d := by
  induction d generalizing acc with
  | nil => simp
  | cons v vs ih =>
    simp only [List.foldl_cons, ih, mem_set_insert, List.mem_cons]
    tauto

theorem foldl_set_insert_keeps_sorted {T : Type} [LinearOrder T] (d acc : List T)
    (h : acc.Sorted (· < ·)) : (d.foldl (fun s v => set_insert v s) acc).Sorted (· < ·) := by
  induction d generalizing acc with
  | nil => simpa using h
  | cons v vs ih => exact ih _ (set_insert_sorted v acc h)

theorem foldl_pq_push {T : Type} (d acc : List T) :
    d.foldl (fun c v => pq_push v c) acc = acc ++ d := by
  simpa [pq_push] using foldl_push_back d acc

/-- The set reader on a stream that encodes the sequence `d`, whatever the target
holds. -/
theorem read_set_into {T : Type} [LinearOrder T] {E : ModelField T} {ok : T → Prop}
    {enc : T → List Byte} (hE : BinaryCodec E plain_label ok enc) (d : List T)
    (hlen : d.length < WORD) (hok : ∀ v ∈ d, ok v) (src : io_buf) (rest : List Byte)
    (h : src.unread = vector_bytes enc d ++ rest) (set : List T) :
    read_model_field_set E src set
      = (.ok (d.foldl (fun s v => set_insert v s) set, (vector_bytes enc d).length % WORD),
          { src with unread := rest }) := by
  have hc := read_count_bytes src (to_uint64 d.length) (d.flatMap enc ++ rest)
    (by simpa [vector_bytes, List.append_assoc] using h)
  have hr := read_elements_binary hE set_insert d hok
    { src with unread := d.flatMap enc ++ rest } rest set 8 (by decide) rfl
  simp only [read_model_field_set, hc, to_uint64_val hlen, hr, vector_bytes,
    List.length_append, uint64_bytes_length]

/-- The priority-queue reader on a stream that encodes the sequence `d`, whatever
the target holds. -/
theorem read_priority_queue_into {T : Type} {E : ModelField T} {ok : T → Prop}
    {enc : T → List Byte} (hE : BinaryCodec E plain_label ok enc) (d : List T)
    (hlen : d.length < WORD) (hok : ∀ v ∈ d, ok v) (src : io_buf) (rest : List Byte)
    (h : src.unread = vector_bytes enc d ++ rest) (pq : List T) :
    read_model_field_priority_queue E src pq
      = (.ok (pq ++ d, (vector_bytes enc d).length % WORD), { src with unread := rest }) := by
  have hc := read_count_bytes src (to_uint64 d.length) (d.flatMap enc ++ rest)
    (by simpa [vector_bytes, List.append_assoc] using h)
  have hr := read_elements_binary hE pq_push d hok
    { src with unread := d.flatMap enc ++ rest } rest pq 8 (by decide) rfl
  simp only [read_model_field_priority_queue, hc, to_uint64_val hlen, hr, foldl_pq_push,
    vector_bytes, List.length_append, uint64_bytes_length]

/-- Counterexample to C17: on the stream that encodes 1, 2 a target set holding 7
ends as `{1, 2, 7}` while an empty target ends as `{1, 2}`; on the stream that
encodes 2, 1 a target queue holding 7 ends holding 7, 2, 1 while an empty target
ends holding 2, 1. The result depends on what the target held. -/
theorem read_keeps_prior_content :
    read_model_field_set (pod_field pod_uint64)
        (io_buf.source (vector_bytes pod_uint64.toBytes [1, 2])) [7]
      = (.ok ([1, 2, 7], 24), io_buf.source []) ∧
    read_model_field_set (pod_field pod_uint64)
        (io_buf.source (vector_bytes pod_uint64.toBytes [1, 2])) []
      = (.ok ([1, 2], 24), io_buf.source []) ∧
    read_model_field_priority_queue (pod_field pod_uint64)
        (io_buf.source (vector_bytes pod_uint64.toBytes [2, 1])) [7]
      = (.ok ([7, 2, 1], 24), io_buf.source []) ∧
    read_model_field_priority_queue (pod_field pod_uint64)
        (io_buf.source (vector_bytes pod_uint64.toBytes [2, 1])) []
      = (.ok ([2, 1], 24), io_buf.source []) ∧
    ¬ (∀ (src : io_buf) (t1 t2 : List uint64_t),
        read_model_field_set (pod_field pod_uint64) src t1
          = read_model_field_set (pod_field pod_uint64) src t2) ∧
    ¬ (∀ (src : io_buf) (t1 t2 : List uint64_t),
        read_model_field_priority_queue (pod_field pod_uint64) src t1
          = read_model_field_priority_queue (pod_field pod_uint64) src t2) := by
  refine ⟨by decide, by decide, by decide, by decide, ?_, ?_⟩
  · intro h
    exact absurd (h (io_buf.source (vector_bytes pod_uint64.toBytes [1, 2])) [7] [])
      (by decide)
  · intro h
    exact absurd (h (io_buf.source (vector_bytes pod_uint64.toBytes [2, 1])) [7] [])
      (by decide)

/-- C17, amended: on a source that holds the encoding of a sequence `d` of elements,
the set reader and the priority-queue reader add the decoded elements to what the
target holds. The target set ends with its prior elements and the elements of `d`,
in ascending order; the target queue ends with its prior elements and the elements
of `d`, in this order. A target that was empty ends with exactly the decoded
elements. -/
theorem read_adds_to_target {T : Type} [LinearOrder T] (E : ModelField T) (ok : T → Prop)
    (enc : T → List Byte) (hE : BinaryCodec E plain_label ok enc) (d : List T)
    (hlen : d.length < WORD) (hd : ∀ v ∈ d, ok v) (src : io_buf) (rest : List Byte)
    (hsrc : src.unread = vector_bytes enc d ++ rest) (set : List T)
    (hset : set.Sorted (· < ·)) (pq : List T) :
    ∃ (n : Nat) (set1 set2 : List T),
      read_model_field_set E src set = (.ok (set1, n), { src with unread := rest }) ∧
      (∀ x, x ∈ set1 ↔ x ∈ set ∨ x ∈ d) ∧ set1.Sorted (· < ·) ∧
      read_model_field_set E src [] = (.ok (set2, n), { src with unread := rest }) ∧
      (∀ x, x ∈ set2 ↔ x ∈ d) ∧ set2.Sorted (· < ·) ∧
      read_model_field_priority_queue E src pq
        = (.ok (pq ++ d, n), { src with unread := rest }) ∧
      read_model_field_priority_queue E src [] = (.ok (d, n), { src with unread := rest }) := by
  have h1 := read_set_into hE d hlen hd src rest hsrc set
  have h2 := read_set_into hE d hlen hd src rest hsrc []
  have h3 := read_priority_queue_into hE d hlen hd src rest hsrc pq
  have h4 := read_priority_queue_into hE d hlen hd src rest hsrc []
  rw [List.nil_append] at h4
  refine ⟨_, _, _, h1, mem_foldl_set_insert d set, foldl_set_insert_keeps_sorted d set hset,
    h2, ?_, foldl_set_insert_keeps_sorted d [] List.sorted_nil, h3, h4⟩
  intro x
  rw [mem_foldl_set_insert]
  simp

/-- Witness of the amended C17: the stream that encodes 2, 1, a target set `{1, 7}`
and a target queue holding 7. -/
theorem read_adds_to_target_witness :
    (([2, 1] : List uint64_t).length < WORD ∧
      (io_buf.source (vector_bytes pod_uint64.toBytes [2, 1])).unread
        = vector_bytes pod_uint64.toBytes [2, 1] ++ [] ∧
      ([1, 7] : List uint64_t).Sorted (· < ·)) ∧
    ∃ (n : Nat) (set1 set2 : List uint64_t),
      read_model_field_set (pod_field pod_uint64)
          (io_buf.source (vector_bytes pod_uint64.toBytes [2, 1])) [1, 7]
        = (.ok (set1, n),
            { io_buf.source (vector_bytes pod_uint64.toBytes [2, 1]) with unread := [] }) ∧
      (∀ x, x ∈ set1 ↔ x ∈ ([1, 7] : List uint64_t) ∨ x ∈ ([2, 1] : List uint64_t)) ∧
      set1.Sorted (· < ·) ∧
      read_model_field_set (pod_field pod_uint64)
          (io_buf.source (vector_bytes pod_uint64.toBytes [2, 1])) []
        = (.ok (set2, n),
            { io_buf.source (vector_bytes pod_uint64.toBytes [2, 1]) with unread := [] }) ∧
      (∀ x, x ∈ set2 ↔ x ∈ ([2, 1] : List uint64_t)) ∧ set2.Sorted (· < ·) ∧
      read_model_field_priority_queue (pod_field pod_uint64)
          (io_buf.source (vector_bytes pod_uint64.toBytes [2, 1])) [7]
        = (.ok ([7] ++ [2, 1], n),
            { io_buf.source (vector_bytes pod_uint64.toBytes [2, 1]) with unread := [] }) ∧
      read_model_field_priority_queue (pod_field pod_uint64)
          (io_buf.source (vector_bytes pod_uint64.toBytes [2, 1])) []
        = (.ok ([2, 1], n),
            { io_buf.source (vector_bytes pod_uint64.toBytes [2, 1]) with unread := [] }) :=
  ⟨⟨by decide, by decide, by decide⟩,
    read_adds_to_target (pod_field pod_uint64) (fun _ => True) pod_uint64.toBytes
      (pod_codec_plain pod_uint64) [2, 1] (by decide) (fun _ _ => trivial)
      (io_buf.source (vector_bytes pod_uint64.toBytes [2, 1])) [] (by decide) [1, 7]
      (by decide) [7]⟩

/-! ### Reading a map -/

theorem map_lookup_assign {K V : Type} [LinearOrder K] (k k1 : K) (v : V) (m : List (K × V)) :
    map_lookup k (map_assign k1 v m) = if k1 = k then some v else map_lookup k m := by
  induction m with
  | nil => simp [map_assign, map_lookup]
  | cons e m ih =>
    by_cases hk : k1 = k
    · subst hk
      simp only [if_true] at ih ⊢
      by_cases h1 : k1 < e.1
      · simp [map_assign, h1, map_lookup]
      · by_cases h2 : e.1 < k1
        · simp [map_assign, h1, h2, map_lookup, ih, ne_of_lt h2]
        · have he : e.1 = k1 := le_antisymm (not_lt.mp h1) (not_lt.mp h2)
          simp [map_assign, h1, h2, map_lookup, he]
    · simp only [if_neg hk] at ih ⊢
      by_cases h1 : k1 < e.1
      · simp [map_assign, h1, map_lookup, hk]
      · by_cases h2 : e.1 < k1
        · simp [map_assign, h1, h2, map_lookup, ih]
        · have he : e.1 = k1 := le_antisymm (not_lt.mp h1) (not_lt.mp h2)
          simp [map_assign, h1, h2, map_lookup, he, hk]

theorem map_lookup_foldl_absent {K V : Type} [LinearOrder K] (k : K) (es m : List (K × V))
    (h : ∀ e ∈ es, e.1 ≠ k) :
    map_lookup k (es.foldl (fun m e => map_assign e.1 e.2 m) m) = map_lookup k m := by
  induction es generalizing m with
  | nil => rfl
  | cons e es ih =>
    rw [List.foldl_cons, ih _ (fun x hx => h x (List.mem_cons_of_mem _ hx)), map_lookup_assign,
      if_neg (h e (List.mem_cons_self _ _))]

theorem map_lookup_foldl_last {K V : Type} [LinearOrder K] (k : K) (v : V)
    (a b m : List (K × V)) (h : ∀ e ∈ b, e.1 ≠ k) :
    map_lookup k ((a ++ (k, v) :: b).foldl (fun m e => map_assign e.1 e.2 m) m) = some v := by
  rw [List.foldl_append, List.foldl_cons, map_lookup_foldl_absent k b _ h, map_lookup_assign,
    if_pos rfl]

theorem mem_map_assign {K V : Type} [LinearOrder K] (k : K) (v : V) (m : List (K × V))
    (y : K × V) (hy : y ∈ map_assign k v m) : y.1 = k ∨ y ∈ m := by
  induction m with
  | nil =>
    simp only [map_assign, List.mem_singleton] at hy
    left
    rw [hy]
  | cons e m ih =>
    simp only [map_assign] at hy
    split_ifs at hy with h1 h2
    · rcases List.mem_cons.mp hy with rfl | hy
      · left
        rfl
      · right
        exact hy
    · rcases List.mem_cons.mp hy with rfl | hy
      · right
        exact List.mem_cons_self _ _
      · rcases ih hy with h | h
        · left
          exact h
        · right
          exact List.mem_cons_of_mem _ h
    · rcases List.mem_cons.mp hy with rfl | hy
      · left
        exact le_antisymm (not_lt.mp h1) (not_lt.mp h2)
      · right
        exact List.mem_cons_of_mem _ hy

theorem map_assign_sorted {K V : Type} [LinearOrder K] (k : K) (v : V) (m : List (K × V))
    (hm : m.Pairwise (fun a b => a.1 < b.1)) :
    (map_assign k v m).Pairwise (fun a b => a.1 < b.1) := by
  induction m with
  | nil => simp [map_assign]
  | cons e m ih =>
    have he := List.pairwise_cons.mp hm
    simp only [map_assign]
    split_ifs with h1 h2
    · refine List.pairwise_cons.mpr ⟨?_, hm⟩
      intro b hb
      rcases List.mem_cons.mp hb with rfl | hb
      · exact h1
      · exact lt_trans h1 (he.1 b hb)
    · refine List.pairwise_cons.mpr ⟨?_, ih he.2⟩
      intro b hb
      rcases mem_map_assign k v m b hb with h | h
      · rw [h]
        exact h2
      · exact he.1 b h
    · exact List.pairwise_cons.mpr ⟨fun b hb => he.1 b hb, he.2⟩

theorem foldl_map_assign_keeps_sorted {K V : Type} [LinearOrder K] (es m : List (K × V))
    (hm : m.Pairwise (fun a b => a.1 < b.1)) :
    (es.foldl (fun m e => map_assign e.1 e.2 m) m).Pairwise (fun a b => a.1 < b.1) := by
  induction es generalizing m with
  | nil => simpa using hm
  | cons e es ih => exact ih _ (map_assign_sorted e.1 e.2 m hm)

/-- The map reader on a stream that encodes the sequence of entries `es`, whatever
the target holds. -/
theorem read_map_into {K V : Type} [LinearOrder K] {EK : ModelField K} {EV : ModelField V}
    {labK labV : String → Prop} {okK : K → Prop} {okV : V → Prop} {encK : K → List Byte}
    {encV : V → List Byte} (hK : BinaryCodec EK labK okK encK)
    (hV : BinaryCodec EV labV okV encV) (es : List (K × V)) (hlen : es.length < WORD)
    (hes : ∀ e ∈ es, okK e.1 ∧ okV e.2) (src : io_buf) (rest : List Byte)
    (h : src.unread = vector_bytes (entry_bytes encK encV) es ++ rest) (map : List (K × V)) :
    read_model_field_map EK EV src map
      = (.ok (es.foldl (fun m e => map_assign e.1 e.2 m) map,
            (vector_bytes (entry_bytes encK encV) es).length % WORD),
          { src with unread := rest }) := by
  have hc := read_count_bytes src (to_uint64 es.length)
    (es.flatMap (entry_bytes encK encV) ++ rest)
    (by simpa [vector_bytes, List.append_assoc] using h)
  have hr := read_elements_binary (pair_codec hK hV)
    (fun (pair : K × V) map => map_assign pair.1 pair.2 map) es hes
    { src with unread := es.flatMap (entry_bytes encK encV) ++ rest } rest map 8 (by decide)
    rfl
  simp only [read_model_field_map, hc, to_uint64_val hlen, hr, vector_bytes,
    List.length_append, uint64_bytes_length]

/-- C18: on a source that holds a count `n` followed by `n` entries `es` (keys may
repeat), and whatever the target map holds, `read_model_field` succeeds and leaves
a map in which every key that occurs in the stream has the value of its last
occurrence in the stream, and every key that does not occur in the stream has what
the target held for it before (a value or none). A target in ascending key order
stays in ascending key order. -/
theorem map_read_overwrites {K V : Type} [LinearOrder K] (EK : ModelField K)
    (EV : ModelField V) (labK labV : String → Prop) (okK : K → Prop) (okV : V → Prop)
    (encK : K → List Byte) (encV : V → List Byte) (hK : BinaryCodec EK labK okK encK)
    (hV : BinaryCodec EV labV okV encV) (es : List (K × V)) (hlen : es.length < WORD)
    (hes : ∀ e ∈ es, okK e.1 ∧ okV e.2) (src : io_buf) (rest : List Byte)
    (hsrc : src.unread = vector_bytes (entry_bytes encK encV) es ++ rest)
    (map : List (K × V)) (hmap : map.Pairwise (fun a b => a.1 < b.1)) :
    ∃ (n : Nat) (map1 : List (K × V)),
      read_model_field_map EK EV src map = (.ok (map1, n), { src with unread := rest }) ∧
      (∀ (a b : List (K × V)) (k : K) (v : V), es = a ++ (k, v) :: b → (∀ e ∈ b, e.1 ≠ k) →
        map_lookup k map1 = some v) ∧
      (∀ k : K, (∀ e ∈ es, e.1 ≠ k) → map_lookup k map1 = map_lookup k map) ∧
      map1.Pairwise (fun a b => a.1 < b.1) := by
  refine ⟨_, _, read_map_into hK hV es hlen hes src rest hsrc map, ?_, ?_,
    foldl_map_assign_keeps_sorted es map hmap⟩
  · intro a b k v hab hb
    rw [hab]
    exact map_lookup_foldl_last k v a b map hb
  · intro k hk
    exact map_lookup_foldl_absent k es map hk

/-- Witness of C18: the stream holds the entries (1, 10), (2, 20), (1, 11) and the
target holds 1 ↦ 5 and 3 ↦ 30; the map read is 1 ↦ 11, 2 ↦ 20, 3 ↦ 30. -/
theorem map_read_overwrites_witness :
    (([(1, 10), (2, 20), (1, 11)] : List (uint64_t × uint64_t)).length < WORD ∧
      ([(1, 5), (3, 30)] : List (uint64_t × uint64_t)).Pairwise (fun a b => a.1 < b.1)) ∧
    (∃ (n : Nat) (map1 : List (uint64_t × uint64_t)),
      read_model_field_map (pod_field pod_uint64) (pod_field pod_uint64)
          (io_buf.source (vector_bytes (entry_bytes pod_uint64.toBytes pod_uint64.toBytes)
            [(1, 10), (2, 20), (1, 11)])) [(1, 5), (3, 30)]
        = (.ok (map1, n),
            { io_buf.source (vector_bytes (entry_bytes pod_uint64.toBytes pod_uint64.toBytes)
                [(1, 10), (2, 20), (1, 11)]) with unread := [] }) ∧
      (∀ (a b : List (uint64_t × uint64_t)) (k : uint64_t) (v : uint64_t),
        [(1, 10), (2, 20), (1, 11)] = a ++ (k, v) :: b → (∀ e ∈ b, e.1 ≠ k) →
        map_lookup k map1 = some v) ∧
      (∀ k : uint64_t, (∀ e ∈ ([(1, 10), (2, 20), (1, 11)] : List (uint64_t × uint64_t)),
        e.1 ≠ k) → map_lookup k map1 = map_lookup k [(1, 5), (3, 30)]) ∧
      map1.Pairwise (fun a b => a.1 < b.1)) ∧
    read_model_field_map (pod_field pod_uint64) (pod_field pod_uint64)
        (io_buf.source (vector_bytes (entry_bytes pod_uint64.toBytes pod_uint64.toBytes)
          [(1, 10), (2, 20), (1, 11)])) [(1, 5), (3, 30)]
      = (.ok ([(1, 11), (2, 20), (3, 30)], 56), io_buf.source []) :=
  ⟨⟨by decide, by decide⟩,
    map_read_overwrites (pod_field pod_uint64) (pod_field pod_uint64) any_label any_label
      (fun _ => True) (fun _ => True) pod_uint64.toBytes pod_uint64.toBytes
      (pod_codec pod_uint64) (pod_codec pod_uint64) [(1, 10), (2, 20), (1, 11)] (by decide)
      (fun _ _ => ⟨trivial, trivial⟩)
      (io_buf.source (vector_bytes (entry_bytes pod_uint64.toBytes pod_uint64.toBytes)
        [(1, 10), (2, 20), (1, 11)])) [] (List.append_nil _).symm [(1, 5), (3, 30)]
      (by decide),
    by decide⟩

/-! ### Text of nested composites -/

theorem default_bytes_append (f1 f2 : List (String × String)) :
    default_bytes (f1 ++ f2) = default_bytes f1 ++ default_bytes f2 := by
  simp [default_bytes]

theorem default_bytes_single (name value : String) :
    default_bytes [(name, value)] = str_bytes (text_line name value) := by
  simp [default_bytes]

theorem default_bytes_cons (name value : String) (fs : List (String × String)) :
    default_bytes ((name, value) :: fs) = str_bytes (text_line name value) ++ default_bytes fs := by
  simp [default_bytes]

theorem counter_label (name : String) (i : Nat) (hi : i < WORD) :
    index_label name (fmt_counter i) = name ++ "[" ++ toString i ++ "]" := by
  simp only [index_label, fmt_counter, to_uint64_val hi]

theorem renders_pod {T : Type} (P : Pod T) :
    RendersAs (pod_field P) true (pod_fields P) (fun _ => True) := by
  intro v _ io name hio hn hne
  refine ⟨(text_line name (P.fmt v)).length, ?_, ?_⟩
  · rw [pod_fields, default_bytes_single]
    exact write_pod_text P io hio v name (hne rfl) hn
  · rw [pod_fields, default_bytes_single, str_bytes_length]

theorem write_count_renders (io : io_buf) (hio : io.room = none) (size : Nat)
    (hsize : size < WORD) (name : String) (hn : has_marker name = false) :
    ∃ n : Nat,
      write_count io size name true
        = (.ok n, { io with written
            := io.written ++ str_bytes (text_line (name ++ ".size()") (toString size)) }) ∧
      n = (str_bytes (text_line (name ++ ".size()") (toString size))).length % WORD := by
  refine ⟨_, write_count_text io hio size hsize name hn, ?_⟩
  rw [str_bytes_length]

theorem write_elements_renders {T : Type} {E : ModelField T} {c : Bool}
    {r : String → T → List (String × String)} {ok : T → Prop} (hE : RendersAs E c r ok)
    (name : String) (hn : has_marker name = false) (vs : List T) (hvs : ∀ v ∈ vs, ok v)
    (i : Nat) (hi : i + vs.length ≤ WORD) (io : io_buf) (hio : io.room = none) (b : Nat) :
    ∃ n : Nat,
      write_elements_loop E name true vs i io b
        = (.ok n,
            { io with written := io.written ++ default_bytes (element_fields r name i vs) }) ∧
      n % WORD = (b + (default_bytes (element_fields r name i vs)).length) % WORD := by
  induction vs generalizing i io b with
  | nil => exact ⟨b, by simp [write_elements_loop, element_fields, default_bytes], by
      simp [element_fields, default_bytes]⟩
  | cons v vs ih =>
    have hiw : i < WORD := by
      simp only [List.length_cons] at hi
      omega
    have hlab := counter_label name i hiw
    obtain ⟨k, h1, hk⟩ := hE v (hvs v (List.mem_cons_self _ _)) io
      (index_label name (fmt_counter i)) hio (plain_index_label name hn i)
      (fun _ => index_label_ne_empty _ _)
    rw [hlab] at hk
    obtain ⟨n, h2, hn2⟩ := ih (fun w hw => hvs w (List.mem_cons_of_mem _ hw)) (i + 1)
      (by simp only [List.length_cons] at hi; omega)
      { io with written
          := io.written ++ default_bytes (r (index_label name (fmt_counter i)) v) } hio
      (add_bytes b k)
    refine ⟨n, ?_, ?_⟩
    · simp only [write_elements_loop, h1]
      rw [h2]
      simp only [element_fields, default_bytes_append, List.append_assoc, hlab]
    · simp only [element_fields, default_bytes_append, List.length_append]
      simp only [add_bytes, WORD] at hn2 hk ⊢
      omega

theorem renders_vector {T : Type} {E : ModelField T} {c : Bool}
    {r : String → T → List (String × String)} {ok : T → Prop} (hE : RendersAs E c r ok) :
    RendersAs (vector_field E) false (sequence_fields r)
      (fun vs => vs.length < WORD ∧ ∀ v ∈ vs, ok v) := by
  intro vs hvs io name hio hn _
  obtain ⟨b, h1, hb⟩ := write_count_renders io hio vs.length hvs.1 name hn
  obtain ⟨n, h2, hn2⟩ := write_elements_renders hE name hn vs hvs.2 0 (by have := hvs.1; omega)
    { io with written
        := io.written ++ str_bytes (text_line (name ++ ".size()") (toString vs.length)) } hio b
  refine ⟨n, ?_, ?_⟩
  · simp only [vector_field, write_model_field_vector, hn, h1, to_uint64_val hvs.1,
      List.take_length, h2, sequence_fields, default_bytes_cons, List.append_assoc]
    simp
  · simp only [sequence_fields, default_bytes_cons, List.length_append]
    rw [hb] at hn2
    simp only [WORD] at hn2 ⊢
    omega

theorem renders_set {T : Type} [LinearOrder T] {E : ModelField T} {c : Bool}
    {r : String → T → List (String × String)} {ok : T → Prop} (hE : RendersAs E c r ok) :
    RendersAs (set_field E) false (sequence_fields r)
      (fun vs => vs.length < WORD ∧ ∀ v ∈ vs, ok v) := by
  intro vs hvs io name hio hn _
  obtain ⟨b, h1, hb⟩ := write_count_renders io hio vs.length hvs.1 name hn
  obtain ⟨n, h2, hn2⟩ := write_elements_renders hE name hn vs hvs.2 0 (by have := hvs.1; omega)
    { io with written
        := io.written ++ str_bytes (text_line (name ++ ".size()") (toString vs.length)) } hio b
  refine ⟨n, ?_, ?_⟩
  · simp only [set_field, write_model_field_set, hn, h1, h2, sequence_fields,
      default_bytes_cons, List.append_assoc]
    simp
  · simp only [sequence_fields, default_bytes_cons, List.length_append]
    rw [hb] at hn2
    simp only [WORD] at hn2 ⊢
    omega

theorem renders_priority_queue {T : Type} [LinearOrder T] {E : ModelField T} {c : Bool}
    {r : String → T → List (String × String)} {ok : T → Prop} (hE : RendersAs E c r ok) :
    RendersAs (priority_queue_field E) false
      (fun L pq => sequence_fields r L (pop_sequence pq))
      (fun vs => vs.length < WORD ∧ ∀ v ∈ vs, ok v) := by
  intro q hq io name hio hn _
  have hl := pop_sequence_length q
  have hok : ∀ v ∈ pop_sequence q, ok v := fun v hv => hq.2 v (pq_pop_order_subset _ _ v hv)
  obtain ⟨b, h1, hb⟩ := write_count_renders io hio q.length hq.1 name hn
  obtain ⟨n, h2, hn2⟩ := write_elements_renders hE name hn (pop_sequence q) hok 0
    (by have := hq.1; omega)
    { io with written
        := io.written ++ str_bytes (text_line (name ++ ".size()") (toString q.length)) } hio b
  refine ⟨n, ?_, ?_⟩
  · simp only [pop_sequence] at h2 hl
    simp only [priority_queue_field, write_model_field_priority_queue, hn, h1,
      write_priority_queue_loop_eq, h2, sequence_fields, default_bytes_cons, List.append_assoc,
      hl, pop_sequence]
    simp
  · simp only [sequence_fields, default_bytes_cons, List.length_append, hl]
    rw [hb] at hn2
    simp only [WORD] at hn2 ⊢
    omega

theorem renders_pair {F S : Type} {EF : ModelField F} {ES : ModelField S} {c1 c2 : Bool}
    {r1 : String → F → List (String × String)} {r2 : String → S → List (String × String)}
    {ok1 : F → Prop} {ok2 : S → Prop} (hF : RendersAs EF c1 r1 ok1)
    (hS : RendersAs ES c2 r2 ok2) :
    RendersAs (pair_field EF ES) false (pair_fields r1 r2) (fun p => ok1 p.1 ∧ ok2 p.2) := by
  intro p hp io name hio hn _
  obtain ⟨k1, h1, hk1⟩ := hF p.1 hp.1 io (name ++ ".first") hio (plain_first_label name hn)
    (fun _ => append_ne_empty _ _ (by decide))
  obtain ⟨k2, h2, hk2⟩ := hS p.2 hp.2
    { io with written := io.written ++ default_bytes (r1 (name ++ ".first") p.1) }
    (name ++ ".second") hio (plain_second_label name hn)
    (fun _ => append_ne_empty _ _ (by decide))
  refine ⟨add_bytes (add_bytes 0 k1) k2, ?_, ?_⟩
  · simp only [pair_field, write_model_field_pair, hn, h1, h2, pair_fields,
      default_bytes_append, List.append_assoc]
    simp
  · simp only [pair_fields, default_bytes_append, List.length_append]
    simp only [add_bytes, WORD] at hk1 hk2 ⊢
    omega

theorem write_map_loop_renders {K V : Type} (PK : Pod K)
    (hkey : ∀ k, has_marker (PK.fmt k) = false) {EV : ModelField V} {c : Bool}
    {rV : String → V → List (String × String)} {okV : V → Prop} (hV : RendersAs EV c rV okV)
    (name : String) (hn : has_marker name = false) (M : List (K × V))
    (hM : ∀ e ∈ M, okV e.2) (i : Nat) (hi : i + M.length ≤ WORD) (io : io_buf)
    (hio : io.room = none) (b : Nat) :
    ∃ n : Nat,
      write_map_loop (pod_field PK) EV PK.fmt name true M i io b
        = (.ok n,
            { io with written
                := io.written ++ default_bytes (entry_fields PK.fmt rV name i M) }) ∧
      n % WORD = (b + (default_bytes (entry_fields PK.fmt rV name i M)).length) % WORD := by
  induction M generalizing i io b with
  | nil => exact ⟨b, by simp [write_map_loop, entry_fields, default_bytes], by
      simp [entry_fields, default_bytes]⟩
  | cons e M ih =>
    have hiw : i < WORD := by
      simp only [List.length_cons] at hi
      omega
    have hc : fmt_counter i = toString i := by
      simp only [fmt_counter, to_uint64_val hiw]
    have hlab : index_label name (PK.fmt e.1) = name ++ "[" ++ PK.fmt e.1 ++ "]" := rfl
    have h1 := write_pod_text PK io hio e.1 (name ++ ".key" ++ fmt_counter i)
      (key_label_ne_empty _ _) (plain_key_label name hn i)
    obtain ⟨k2, h2, hk2⟩ := hV e.2 (hM e (List.mem_cons_self _ _))
      { io with written := io.written
          ++ str_bytes (text_line (name ++ ".key" ++ fmt_counter i) (PK.fmt e.1)) }
      (index_label name (PK.fmt e.1)) hio (has_marker_index_label name _ hn (hkey e.1))
      (fun _ => index_label_ne_empty _ _)
    obtain ⟨n, h3, hn3⟩ := ih (fun w hw => hM w (List.mem_cons_of_mem _ hw)) (i + 1)
      (by simp only [List.length_cons] at hi; omega)
      { io with written := io.written
          ++ str_bytes (text_line (name ++ ".key" ++ fmt_counter i) (PK.fmt e.1))
          ++ default_bytes (rV (index_label name (PK.fmt e.1)) e.2) } hio
      (add_bytes
        (add_bytes b (text_line (name ++ ".key" ++ fmt_counter i) (PK.fmt e.1)).length) k2)
    refine ⟨n, ?_, ?_⟩
    · simp only [write_map_loop, pod_field, h1]
      simp only [pod_field] at h2
      simp only [h2]
      simp only [pod_field] at h3
      rw [h3]
      simp only [entry_fields, default_bytes_cons, default_bytes_append, List.append_assoc, hc,
        hlab]
    · simp only [entry_fields, default_bytes_cons, default_bytes_append, List.length_append,
        str_bytes_length]
      rw [hlab] at hk2
      rw [hc] at hn3
      simp only [add_bytes, WORD] at hn3 hk2 ⊢
      omega

theorem renders_map {K V : Type} [LinearOrder K] (PK : Pod K)
    (hkey : ∀ k, has_marker (PK.fmt k) = false) {EV : ModelField V} {c : Bool}
    {rV : String → V → List (String × String)} {okV : V → Prop} (hV : RendersAs EV c rV okV) :
    RendersAs (map_field (pod_field PK) EV PK.fmt) false (map_fields PK.fmt rV)
      (fun M => M.length < WORD ∧ ∀ e ∈ M, okV e.2) := by
  intro M hM io name hio hn _
  obtain ⟨b, h1, hb⟩ := write_count_renders io hio M.length hM.1 name hn
  obtain ⟨n, h2, hn2⟩ := write_map_loop_renders PK hkey hV name hn M hM.2 0
    (by have := hM.1; omega)
    { io with written
        := io.written ++ str_bytes (text_line (name ++ ".size()") (toString M.length)) } hio b
  refine ⟨n, ?_, ?_⟩
  · simp only [map_field, write_model_field_map, hn, h1, h2, map_fields, default_bytes_cons,
      List.append_assoc]
    simp
  · simp only [map_fields, default_bytes_cons, List.length_append]
    rw [hb] at hn2
    simp only [WORD] at hn2 ⊢
    omega

/-- A nested composite of scalars is rendered as the default lines of its fields. -/
theorem nested_renders {T : Type} {E : ModelField T} {c : Bool}
    {r : String → T → List (String × String)} {ok : T → Prop} (h : Nested T E c r ok) :
    RendersAs E (!c) r ok := by
  induction h with
  | pod P => exact renders_pod P
  | vector _ ih => exact renders_vector ih
  | set _ ih => exact renders_set ih
  | priority_queue _ ih => exact renders_priority_queue ih
  | pair _ _ ih1 ih2 => exact renders_pair ih1 ih2
  | map PK hkey _ ih => exact renders_map PK hkey ih

/-- C19: for a label `L` without the marker (single braces allowed), no label that
a composite writer builds from it has the marker: `L.size()`, `L[i]`, `L.first`,
`L.second`, `L.key<i>`, and `L[<key text>]` for a key text without the marker. So
the text-mode write of a nested composite of scalars `v` under `L` returns (it
throws neither for a label nor for a template), and what it appends to the sink is
exactly one default line `name = value` for the size of each container and for each
scalar of `v` in the order of the traversal (the fields `r L v`), each under the
label built for it; the count returned is the length of these lines (as a
`size_t`). -/
theorem sublabels_stay_plain {T : Type} (E : ModelField T)
    (r : String → T → List (String × String)) (ok : T → Prop) (hE : Nested T E true r ok)
    (L : String) (hL : has_marker L = false) (v : T) (hv : ok v) (io : io_buf)
    (hio : io.room = none) :
    (has_marker (L ++ ".size()") = false ∧
      (∀ i : Nat, has_marker (index_label L (fmt_counter i)) = false) ∧
      has_marker (L ++ ".first") = false ∧ has_marker (L ++ ".second") = false ∧
      (∀ i : Nat, has_marker (L ++ ".key" ++ fmt_counter i) = false) ∧
      (∀ key : String, has_marker key = false → has_marker (index_label L key) = false)) ∧
    ∃ n : Nat,
      E.write io v L true
        = (.ok n, { io with written := io.written ++ default_bytes (r L v) }) ∧
      n % WORD = (default_bytes (r L v)).length % WORD :=
  ⟨⟨plain_size_label L hL, plain_index_label L hL, plain_first_label L hL,
      plain_second_label L hL, plain_key_label L hL,
      fun key hk => has_marker_index_label L key hL hk⟩,
    nested_renders hE v hv io L hio hL (fun h => absurd h (by decide))⟩

/-- Witness of C19: the label `a{`, which ends with a single brace, and a map from
`char` to pairs of a number and a vector of sets of numbers; its fields are the
sizes of the three containers, the key, and the three numbers. Then the label `q`
and a map from `char` to priority queues of numbers, the queue holding 5, 1, 9
being rendered as 9, 5, 1. -/
theorem sublabels_stay_plain_witness :
    (has_marker "a\x7b" = false ∧ io_buf.sink.room = none ∧
      (([(97, (1, [[2, 3]]))] : List (char_t × (uint64_t × List (List uint64_t)))).length < WORD ∧
        ∀ e ∈ ([(97, (1, [[2, 3]]))] : List (char_t × (uint64_t × List (List uint64_t)))),
          True ∧ (e.2.2.length < WORD ∧ ∀ s ∈ e.2.2, s.length < WORD ∧ ∀ x ∈ s, True))) ∧
    ((has_marker ("a\x7b" ++ ".size()") = false ∧
      (∀ i : Nat, has_marker (index_label "a\x7b" (fmt_counter i)) = false) ∧
      has_marker ("a\x7b" ++ ".first") = false ∧ has_marker ("a\x7b" ++ ".second") = false ∧
      (∀ i : Nat, has_marker ("a\x7b" ++ ".key" ++ fmt_counter i) = false) ∧
      (∀ key : String, has_marker key = false →
        has_marker (index_label "a\x7b" key) = false)) ∧
    ∃ n : Nat,
      (map_field (pod_field pod_char)
          (pair_field (pod_field pod_uint64) (vector_field (set_field (pod_field pod_uint64))))
          pod_char.fmt).write io_buf.sink [(97, (1, [[2, 3]]))] "a\x7b" true
        = (.ok n, { io_buf.sink with written := (io_buf.sink.written ++ default_bytes
            (map_fields pod_char.fmt
              (pair_fields (pod_fields pod_uint64)
                (sequence_fields (sequence_fields (pod_fields pod_uint64))))
              "a\x7b" [(97, (1, [[2, 3]]))])) }) ∧
      n % WORD = (default_bytes
          (map_fields pod_char.fmt
            (pair_fields (pod_fields pod_uint64)
              (sequence_fields (sequence_fields (pod_fields pod_uint64))))
            "a\x7b" [(97, (1, [[2, 3]]))])).length % WORD) ∧
    map_fields pod_char.fmt
        (pair_fields (pod_fields pod_uint64)
          (sequence_fields (sequence_fields (pod_fields pod_uint64))))
        "a\x7b" ([(97, (1, [[2, 3]]))] : List (char_t × (uint64_t × List (List uint64_t))))
      = [("a\x7b.size()", "1"), ("a\x7b.key0", "a"), ("a\x7b[a].first", "1"),
          ("a\x7b[a].second.size()", "1"), ("a\x7b[a].second[0].size()", "2"),
          ("a\x7b[a].second[0][0]", "2"), ("a\x7b[a].second[0][1]", "3")] ∧
    (map_field (pod_field pod_char)
        (pair_field (pod_field pod_uint64) (vector_field (set_field (pod_field pod_uint64))))
        pod_char.fmt).write io_buf.sink [(97, (1, [[2, 3]]))] "a\x7b" true
      = (.ok 139, ⟨str_bytes ("a\x7b.size() = 1\na\x7b.key0 = a\na\x7b[a].first = 1\n"
          ++ "a\x7b[a].second.size() = 1\na\x7b[a].second[0].size() = 2\n"
          ++ "a\x7b[a].second[0][0] = 2\na\x7b[a].second[0][1] = 3\n"), none, []⟩) ∧
    ((has_marker "q" = false ∧
      (([(97, [5, 1, 9])] : List (char_t × List uint64_t)).length < WORD ∧
        ∀ e ∈ ([(97, [5, 1, 9])] : List (char_t × List uint64_t)),
          e.2.length < WORD ∧ ∀ x ∈ e.2, True)) ∧
      ((has_marker ("q" ++ ".size()") = false ∧
        (∀ i : Nat, has_marker (index_label "q" (fmt_counter i)) = false) ∧
        has_marker ("q" ++ ".first") = false ∧ has_marker ("q" ++ ".second") = false ∧
        (∀ i : Nat, has_marker ("q" ++ ".key" ++ fmt_counter i) = false) ∧
        (∀ key : String, has_marker key = false → has_marker (index_label "q" key) = false)) ∧
      ∃ n : Nat,
        (map_field (pod_field pod_char) (priority_queue_field (pod_field pod_uint64))
            pod_char.fmt).write io_buf.sink [(97, [5, 1, 9])] "q" true
          = (.ok n, { io_buf.sink with written := (io_buf.sink.written ++ default_bytes
              (map_fields pod_char.fmt
                (fun L pq => sequence_fields (pod_fields pod_uint64) L (pop_sequence pq))
                "q" [(97, [5, 1, 9])])) }) ∧
        n % WORD = (default_bytes
            (map_fields pod_char.fmt
              (fun L pq => sequence_fields (pod_fields pod_uint64) L (pop_sequence pq))
              "q" [(97, [5, 1, 9])])).length % WORD) ∧
      (map_field (pod_field pod_char) (priority_queue_field (pod_field pod_uint64))
          pod_char.fmt).write io_buf.sink [(97, [5, 1, 9])] "q" true
        = (.ok 76, ⟨str_bytes ("q.size() = 1\nq.key0 = a\nq[a].size() = 3\n"
            ++ "q[a][0] = 9\nq[a][1] = 5\nq[a][2] = 1\n"), none, []⟩)) :=
  ⟨⟨by decide, rfl, by simp; decide⟩,
    sublabels_stay_plain _ _ _
      (Nested.map pod_char pod_char_fmt_plain
        (Nested.pair (Nested.pod pod_uint64)
          (Nested.vector (Nested.set (Nested.pod pod_uint64)))))
      "a\x7b" (by decide) [(97, (1, [[2, 3]]))] (by simp; decide) io_buf.sink rfl,
    by decide, by decide,
    ⟨by decide, by simp; decide⟩,
    sublabels_stay_plain _ _ _
      (Nested.map pod_char pod_char_fmt_plain (Nested.priority_queue (Nested.pod pod_uint64)))
      "q" (by decide) [(97, [5, 1, 9])] (by simp; decide) io_buf.sink rfl,
    by decide⟩

/-- C20: an empty label does not silence the text of a composite. For a vector `S`
of `n` scalars the text-mode `write_model_field` with the empty label appends the
line `.size() = n` and the lines `[i] = <S[i]>` and returns their length, which is
not zero (the text fitting a `size_t`); a scalar written with the empty label
leaves the sink as it was and returns 0. -/
theorem empty_label_vector_text {T : Type} (P : Pod T) (S : List T) (hlen : S.length < WORD)
    (io : io_buf) (hio : io.room = none)
    (htotal : (vector_text P.fmt "" S).length < WORD) :
    write_model_field_vector (pod_field P) io S "" true
      = (.ok (vector_text P.fmt "" S).length,
          { io with written := io.written ++ str_bytes (vector_text P.fmt "" S) }) ∧
    vector_text P.fmt "" S
      = text_line ".size()" (toString S.length) ++ vector_lines P.fmt "" 0 S ∧
    (vector_text P.fmt "" S).length ≠ 0 ∧
    ∀ v : T, write_model_field_pod P io v "" true = (.ok 0, io) := by
  have h := write_vector_text P S hlen "" (by decide) io hio
  rw [Nat.mod_eq_of_lt htotal] at h
  refine ⟨h, rfl, ?_, ?_⟩
  · have h1 : ("\n" : String).length = 1 := rfl
    simp only [vector_text, text_line, String.length_append, h1]
    omega
  · intro v
    simp [write_model_field_pod, details.write_text_mode_output]

/-- Witness of C20: the vector `[3, 1, 2]` under the empty label is rendered as
`.size() = 3`, `[0] = 3`, `[1] = 1`, `[2] = 2`, one on each line, 36 bytes. -/
theorem empty_label_vector_text_witness :
    (([3, 1, 2] : List uint64_t).length < WORD ∧ io_buf.sink.room = none ∧
      (vector_text pod_uint64.fmt "" [3, 1, 2]).length < WORD) ∧
    (write_model_field_vector (pod_field pod_uint64) io_buf.sink [3, 1, 2] "" true
      = (.ok (vector_text pod_uint64.fmt "" [3, 1, 2]).length,
          { io_buf.sink with written
              := io_buf.sink.written ++ str_bytes (vector_text pod_uint64.fmt "" [3, 1, 2]) }) ∧
    vector_text pod_uint64.fmt "" [3, 1, 2]
      = text_line ".size()" (toString ([3, 1, 2] : List uint64_t).length)
        ++ vector_lines pod_uint64.fmt "" 0 [3, 1, 2] ∧
    (vector_text pod_uint64.fmt "" [3, 1, 2]).length ≠ 0 ∧
    ∀ v : uint64_t, write_model_field_pod pod_uint64 io_buf.sink v "" true
      = (.ok 0, io_buf.sink)) ∧
    vector_text pod_uint64.fmt "" [3, 1, 2] = ".size() = 3\n[0] = 3\n[1] = 1\n[2] = 2\n" ∧
    (vector_text pod_uint64.fmt "" [3, 1, 2]).length = 36 :=
  ⟨⟨by decide, rfl, by decide⟩,
    empty_label_vector_text pod_uint64 [3, 1, 2] (by decide) io_buf.sink rfl (by decide),
    by decide, by decide⟩

end model_utils
end VW
